import Mathlib

/-!
# Red-black binary search tree of `bst.h`

A shallow embedding of `custom::BST<T>`.  Nodes live in an explicit memory
(`Mem`): a node pointer is an address, `nullptr` is `none`.  Every loop and
every recursion of the source takes a fuel argument; a result `none` means
that the fuel ran out or that the source dereferenced a null or deleted
pointer.
-/

namespace custom

/-- Members of `BST<T>::BNode`; a node pointer is an address, `none` is `nullptr`. -/
structure BNode (T : Type) where
  data : T
  pLeft : Option Nat
  pRight : Option Nat
  pParent : Option Nat
  isRed : Bool
deriving DecidableEq, Repr

/-- Memory: the cell at an address holds a live node, or `none` once deleted. -/
abbrev Mem (T : Type) := List (Option (BNode T))

/-- Members of `BST<T>`, together with the memory its nodes live in. -/
structure BST (T : Type) where
  mem : Mem T
  root : Option Nat
  numElements : Nat
deriving DecidableEq, Repr

section memory
variable {T : Type}

/-- Dereference `a`: the live node at address `a`. -/
def load (m : Mem T) (a : Nat) : Option (BNode T) :=
  match m[a]? with
  | some (some n) => some n
  | _ => none

/-- Assign through the pointer `a`: the node there becomes `f` of the old one. -/
def write (m : Mem T) (a : Nat) (f : BNode T → BNode T) : Option (Mem T) :=
  match load m a with
  | some n => some (m.set a (some (f n)))
  | none => none

/-- Expression `new BNode(...)`: the fresh node gets the next unused address. -/
def alloc (m : Mem T) (n : BNode T) : Mem T × Nat :=
  (m ++ [some n], m.length)

/-- Statement `delete p`. -/
def dealloc (m : Mem T) (a : Nat) : Option (Mem T) :=
  match load m a with
  | some _ => some (m.set a none)
  | none => none

/-- Statement `a->pLeft = v`. -/
def setLeft (m : Mem T) (a : Nat) (v : Option Nat) : Option (Mem T) :=
  write m a (fun n => { n with pLeft := v })

/-- Statement `a->pRight = v`. -/
def setRight (m : Mem T) (a : Nat) (v : Option Nat) : Option (Mem T) :=
  write m a (fun n => { n with pRight := v })

/-- Statement `a->pParent = v`. -/
def setParent (m : Mem T) (a : Nat) (v : Option Nat) : Option (Mem T) :=
  write m a (fun n => { n with pParent := v })

/-- Statement `a->isRed = v`. -/
def setRed (m : Mem T) (a : Nat) (v : Bool) : Option (Mem T) :=
  write m a (fun n => { n with isRed := v })

/-- Statement `*dst = *src`: every member of the node is copied. -/
def copyNode (m : Mem T) (dst : Option Nat) (src : Nat) : Option (Mem T) :=
  match dst, load m src with
  | some d, some s => write m d (fun _ => s)
  | _, _ => none

/-- Expression `p ? p->pParent : nullptr`. -/
def parentOf (m : Mem T) (p : Option Nat) : Option (Option Nat) :=
  match p with
  | none => some none
  | some a => (load m a).map (fun n => n.pParent)

/-- Expression `p ? (p->pLeft == c ? p->pRight : p->pLeft) : nullptr`. -/
def otherChild (m : Mem T) (p : Option Nat) (c : Option Nat) : Option (Option Nat) :=
  match p with
  | none => some none
  | some a => (load m a).map (fun n => if n.pLeft = c then n.pRight else n.pLeft)

/-- Expression `p->isRed`, undefined on a null pointer. -/
def redOf (m : Mem T) (p : Option Nat) : Option Bool :=
  match p with
  | none => none
  | some a => (load m a).map (fun n => n.isRed)

/-- `BNode::addLeft(BNode*)`. -/
def addLeft (m : Mem T) (self : Nat) (pNode : Option Nat) : Option (Mem T) :=
  match pNode with
  | none => setLeft m self none
  | some p => do
    let m1 ← setLeft m self (some p)
    setParent m1 p (some self)

/-- `BNode::addRight(BNode*)`. -/
def addRight (m : Mem T) (self : Nat) (pNode : Option Nat) : Option (Mem T) :=
  match pNode with
  | none => setRight m self none
  | some p => do
    let m1 ← setParent m p (some self)
    setRight m1 self (some p)

/-- `BNode::isRightChild`: `pParent && pParent->pRight == this`. -/
def isRightChild (m : Mem T) (self : Nat) : Option Bool := do
  let me ← load m self
  match me.pParent with
  | none => pure false
  | some p => do
    let pn ← load m p
    pure (decide (pn.pRight = some self))

/-- `BNode::isLeftChild`: `pParent && pParent->pLeft == this`. -/
def isLeftChild (m : Mem T) (self : Nat) : Option Bool := do
  let me ← load m self
  match me.pParent with
  | none => pure false
  | some p => do
    let pn ← load m p
    pure (decide (pn.pLeft = some self))

/-- Attach `top` under the great-grandparent after a rotation:
`pGranny->isLeftChild() ? pGreatGranny->addLeft(top) : pGreatGranny->addRight(top)`. -/
def attachTop (m : Mem T) (gg g top : Nat) : Option (Mem T) := do
  let onLeft ← isLeftChild m g
  if onLeft then addLeft m gg (some top) else addRight m gg (some top)

/-- Case 4a of `balance`: we are mom's left and mom is granny's left. -/
def rotate4a (m : Mem T) (p g : Nat) (pSibling pGreatGranny : Option Nat) : Option (Mem T) := do
  let m1 ← setRed m g true
  let m2 ← setRed m1 p false
  let m3 ← addRight m2 p (some g)
  let m4 ← addLeft m3 g pSibling
  match pGreatGranny with
  | some gg => attachTop m4 gg g p
  | none => setParent m4 p none

/-- Case 4b of `balance`: we are mom's right and mom is granny's right. -/
def rotate4b (m : Mem T) (p g : Nat) (pSibling pGreatGranny root : Option Nat) :
    Option (Mem T) := do
  let m1 ← setRed m g true
  let m2 ← setRed m1 p false
  let m3 ← addLeft m2 p (some g)
  let m4 ← addRight m3 g pSibling
  match pGreatGranny with
  | some gg => attachTop m4 gg g p
  | none => do
    let m5 ← setParent m4 p none
    copyNode m5 root p

/-- Case 4c of `balance`: we are mom's right and mom is granny's left. -/
def rotate4c (m : Mem T) (self p g : Nat) (pGreatGranny root : Option Nat) :
    Option (Mem T) := do
  let m1 ← setRed m self false
  let m2 ← setRed m1 g true
  let me ← load m2 self
  let pTempL := me.pLeft
  let pTempR := me.pRight
  let m3 ← addRight m2 p pTempL
  let m4 ← addLeft m3 g pTempR
  let m5 ← addLeft m4 self (some p)
  let m6 ← addRight m5 self (some g)
  match pGreatGranny with
  | some gg => attachTop m6 gg g self
  | none => do
    let m7 ← setParent m6 self none
    copyNode m7 root self

/-- Case 4d of `balance`: we are mom's left and mom is granny's right. -/
def rotate4d (m : Mem T) (self p g : Nat) (pGreatGranny root : Option Nat) :
    Option (Mem T) := do
  let m1 ← setRed m self false
  let m2 ← setRed m1 g true
  let me ← load m2 self
  let pTempL := me.pLeft
  let pTempR := me.pRight
  let m3 ← addRight m2 g pTempL
  let m4 ← addLeft m3 p pTempR
  let m5 ← addLeft m4 self (some g)
  let m6 ← addRight m5 self (some p)
  match pGreatGranny with
  | some gg => attachTop m6 gg g self
  | none => do
    let m7 ← setParent m6 self none
    copyNode m7 root self

/-- Expression `x->f() && y->g()` with its short circuit. -/
def andThen (a : Option Bool) (b : Option Bool) : Option Bool :=
  match a with
  | none => none
  | some false => some false
  | some true => b

/-- Body of case 4 of `balance`: the chain of `if`/`else if` over the four
alignments of the node, its parent `p` and its grandparent `g`. -/
def rotate (m : Mem T) (self p g : Nat) (pSibling pGreatGranny root : Option Nat) :
    Option (Mem T) := do
  let is4a ← andThen (isLeftChild m self) (isLeftChild m p)
  if is4a then rotate4a m p g pSibling pGreatGranny else do
  let is4b ← andThen (isRightChild m self) (isRightChild m p)
  if is4b then rotate4b m p g pSibling pGreatGranny root else do
  let is4c ← andThen (isRightChild m self) (isLeftChild m p)
  if is4c then rotate4c m self p g pGreatGranny root else do
  let is4d ← andThen (isLeftChild m self) (isRightChild m p)
  if is4d then rotate4d m self p g pGreatGranny root else pure m

/-- Condition of case 3: `pAunt and pParent->isRed and pAunt->isRed and !pGranny->isRed`. -/
def isCase3 (m : Mem T) (pParent pAunt pGranny : Option Nat) : Option Bool :=
  match pAunt with
  | none => some false
  | some _ =>
    andThen (redOf m pParent) (andThen (redOf m pAunt) ((redOf m pGranny).map (fun r => !r)))

/-- Condition of case 4:
`pParent->isRed and (!pAunt or !pAunt->isRed) and !pGranny->isRed`. -/
def isCase4 (m : Mem T) (pParent pAunt pGranny : Option Nat) : Option Bool :=
  andThen (redOf m pParent)
    (andThen (match pAunt with
        | none => some true
        | some _ => (redOf m pAunt).map (fun r => !r))
      ((redOf m pGranny).map (fun r => !r)))

/-- `BNode::balance(BNode* root)`, called on the node at `self`.  The argument
`root` is the pointer value the caller passes; the caller's own variable is
not reachable from here. -/
def balance : Nat → Mem T → Nat → Option Nat → Option (Mem T)
  | 0, _, _, _ => none
  | fuel + 1, m, self, root =>
    match load m self with
    | none => none
    | some me =>
      let pParent := me.pParent
      match parentOf m pParent with
      | none => none
      | some pGranny =>
      match otherChild m pParent (some self), parentOf m pGranny,
          otherChild m pGranny pParent with
      | some pSibling, some pGreatGranny, some pAunt =>
        match pParent with
        -- Case 1: we are the root
        | none => setRed m self false
        | some p =>
          match redOf m pParent with
          | none => none
          -- Case 2: the parent is black
          | some false => some m
          | some true =>
            match isCase3 m pParent pAunt pGranny with
            | none => none
            -- Case 3: the aunt is red, recolour and go on from granny
            | some true =>
              match pAunt, pGranny with
              | some au, some g =>
                match (setRed m p false).bind (fun m1 =>
                    (setRed m1 au false).bind (fun m2 => setRed m2 g true)) with
                | some m3 => balance fuel m3 g root
                | none => none
              | _, _ => none
            | some false =>
              match isCase4 m pParent pAunt pGranny with
              | none => none
              | some false => some m
              -- Case 4: the aunt is black or missing, rotate
              | some true =>
                match pGranny with
                | some g => rotate m self p g pSibling pGreatGranny root
                | none => none
      | _, _, _ => none

end memory

section operations
variable {T : Type} [DecidableEq T] [LT T] [DecidableRel (fun a b : T => a < b)]

/-- `BST::BST()`: the empty tree, in a memory without nodes. -/
def BST.empty : BST T := { mem := [], root := none, numElements := 0 }

/-- Node made by `new BNode(t)`: no links, red. -/
def BNode.fresh (t : T) : BNode T :=
  { data := t, pLeft := none, pRight := none, pParent := none, isRed := true }

/-- Statement `numElements++` on a 64-bit `size_t`. -/
def incrSize (n : Nat) : Nat := (n + 1) % 2 ^ 64

/-- Statement `--numElements` on a 64-bit `size_t`. -/
def decrSize (n : Nat) : Nat := (n + 2 ^ 64 - 1) % 2 ^ 64

/-- Traversal loop `while (pCurrent)` of `BST::insert`, entered with a non-null
`pCurrent`.  The result is the tree after the call and the returned pair.
`gas` is the fuel handed to `balance`. -/
def insertLoop (gas : Nat) (t : T) (keepUnique : Bool) :
    Nat → BST T → Nat → Option (BST T × Option Nat × Bool)
  | 0, _, _ => none
  | fuel + 1, b, pCurrent =>
    match load b.mem pCurrent with
    | none => none
    | some cur =>
      if keepUnique && decide (t = cur.data) then
        some (b, some pCurrent, false)
      else if t < cur.data then
        match cur.pLeft with
        | some l => insertLoop gas t keepUnique fuel b l
        | none =>
          let (m0, newNode) := alloc b.mem (BNode.fresh t)
          match (addLeft m0 pCurrent (some newNode)).bind
              (fun m1 => balance gas m1 newNode b.root) with
          | none => none
          | some m2 =>
            (load m2 pCurrent).map (fun cur2 =>
              ({ mem := m2, root := b.root, numElements := incrSize b.numElements },
                cur2.pLeft, true))
      else
        match cur.pRight with
        | some r => insertLoop gas t keepUnique fuel b r
        | none =>
          let (m0, newNode) := alloc b.mem (BNode.fresh t)
          match (addRight m0 pCurrent (some newNode)).bind
              (fun m1 => balance gas m1 newNode b.root) with
          | none => none
          | some m2 =>
            (load m2 pCurrent).map (fun cur2 =>
              ({ mem := m2, root := b.root, numElements := incrSize b.numElements },
                cur2.pRight, true))

/-- `BST::insert(const T& t, bool keepUnique)`; the overload taking `T&&` has
the same body up to `std::move`.  The result is the tree after the call, the
iterator of the returned pair (`none` is `end()`) and its `bool`. -/
def BST.insert (fuel : Nat) (b : BST T) (t : T) (keepUnique : Bool) :
    Option (BST T × Option Nat × Bool) :=
  match b.root with
  | none =>
    let (m0, r) := alloc b.mem (BNode.fresh t)
    (setRed m0 r false).map (fun m1 =>
      ({ mem := m1, root := some r, numElements := incrSize b.numElements }, some r, true))
  | some r => insertLoop fuel t keepUnique fuel b r

/-- Insert the values of a list one after the other with `keepUnique = false`. -/
def BST.insertAll (fuel : Nat) : BST T → List T → Option (BST T)
  | b, [] => some b
  | b, t :: ts =>
    match b.insert fuel t false with
    | none => none
    | some (b1, _, _) => BST.insertAll fuel b1 ts

/-- Loop of `BST::find`: `while (pCurrent)`. -/
def findLoop (m : Mem T) (t : T) : Nat → Option Nat → Option (Option Nat)
  | _, none => some none
  | 0, some _ => none
  | fuel + 1, some p =>
    match load m p with
    | none => none
    | some cur =>
      if t = cur.data then some (some p)
      else if t < cur.data then findLoop m t fuel cur.pLeft
      else findLoop m t fuel cur.pRight

/-- `BST::find`: the returned iterator, `none` for `end()`. -/
def BST.find (fuel : Nat) (b : BST T) (t : T) : Option (Option Nat) :=
  findLoop b.mem t fuel b.root

/-- `BST::size`. -/
def BST.size (b : BST T) : Nat := b.numElements

end operations

section iterators
variable {T : Type}

/-- Loop `while (pNode->pLeft != nullptr) pNode = pNode->pLeft`. -/
def leftmost (m : Mem T) : Nat → Nat → Option Nat
  | 0, _ => none
  | fuel + 1, p =>
    match load m p with
    | none => none
    | some n =>
      match n.pLeft with
      | none => some p
      | some l => leftmost m fuel l

/-- Loop `while (pNode->pParent != nullptr && pNode->pParent->pRight == pNode)
pNode = pNode->pParent`. -/
def climbRight (m : Mem T) : Nat → Nat → Option Nat
  | 0, _ => none
  | fuel + 1, p =>
    match load m p with
    | none => none
    | some n =>
      match n.pParent with
      | none => some p
      | some q =>
        match load m q with
        | none => none
        | some qn => if qn.pRight = some p then climbRight m fuel q else some p

/-- Prefix `iterator::operator++`: the new value of `pNode`. -/
def increment (m : Mem T) (fuel : Nat) (pNode : Option Nat) : Option (Option Nat) :=
  match pNode with
  | none => some none
  | some p =>
    match load m p with
    | none => none
    | some n =>
      match n.pRight with
      -- Case 1: leftmost node of the right subtree
      | some r => (leftmost m fuel r).map some
      | none =>
        match n.pParent with
        | none => some (some p)
        | some q =>
          match load m q with
          | none => none
          | some qn =>
            -- Case 2: we are the left child of the parent
            if qn.pLeft = some p then some (some q)
            -- Case 3: we are the right child, climb while we are a right child
            else if qn.pRight = some p then
              match climbRight m fuel p with
              | none => none
              | some top => (load m top).map (fun tn => tn.pParent)
            else some (some p)

/-- Leaf case of `BST::erase`: disconnect the node from its parent. -/
def eraseLeaf (m : Mem T) (a : Nat) (n : BNode T) : Option (Mem T) :=
  match n.pParent with
  | none => none
  | some q =>
    match load m q with
    | none => none
    | some qn => if qn.pLeft = some a then setLeft m q none else setRight m q none

/-- Two-children case of `BST::erase`: splice in `successor`. -/
def eraseTwo (m : Mem T) (a : Nat) (successor : Option Nat) : Option (Mem T) :=
  match successor with
  | none => none
  | some s => do
    let sn ← load m s
    -- disconnect the successor from its parent
    let m1 ← (match sn.pParent with
      | none => some m
      | some sp => do
        let sLeft ← isLeftChild m s
        if sLeft then addLeft m sp sn.pRight else addRight m sp sn.pRight)
    -- replace nodeToDelete with the successor
    let aLeft ← isLeftChild m1 a
    let an ← load m1 a
    let m2 ← (match an.pParent with
      | none => none
      | some ap => if aLeft then addLeft m1 ap (some s) else addRight m1 ap (some s))
    -- link the children of nodeToDelete to the successor
    let an2 ← load m2 a
    let m3 ← addLeft m2 s an2.pLeft
    let an3 ← load m3 a
    addRight m3 s an3.pRight

/-- One-child case of `BST::erase`: the child takes the place of the node.
The result is the memory and the new value of `root`. -/
def eraseOne (m : Mem T) (root : Option Nat) (a : Nat) (n : BNode T) :
    Option (Mem T × Option Nat) :=
  let child := if n.pLeft.isSome then n.pLeft else n.pRight
  match child with
  | none => none
  | some c => do
    let m1 ← setParent m c n.pParent
    let an ← load m1 a
    match an.pParent with
    | none => pure (m1, some c)
    | some q => do
      let qn ← load m1 q
      let m2 ← (if qn.pLeft = some a then setLeft m1 q (some c) else setRight m1 q (some c))
      pure (m2, root)

/-- `BST::erase(iterator& it)`.  The result is the tree after the call, the
value left in the caller's iterator `it`, and the returned iterator. -/
def BST.erase (fuel : Nat) (b : BST T) (it : Option Nat) :
    Option (BST T × Option Nat × Option Nat) :=
  match it with
  | none => some (b, none, none)
  | some a =>
    match increment b.mem fuel (some a) with
    | none => none
    | some next =>
      let size := decrSize b.numElements
      -- Case 1: the node is the root
      if b.root = some a then
        (dealloc b.mem a).map (fun m1 =>
          ({ mem := m1, root := none, numElements := size }, next, none))
      else
        match load b.mem a with
        | none => none
        | some n =>
          let step : Option (Mem T × Option Nat) :=
            if n.pLeft.isNone && n.pRight.isNone then
              (eraseLeaf b.mem a n).map (fun m1 => (m1, b.root))
            else if n.pLeft.isSome && n.pRight.isSome then
              (eraseTwo b.mem a next).map (fun m1 => (m1, b.root))
            else eraseOne b.mem b.root a n
          match step with
          | none => none
          | some (m1, root1) =>
            (dealloc m1 a).map (fun m2 =>
              ({ mem := m2, root := root1, numElements := size }, next, next))

end iterators

section assignment
variable {T : Type}

/-- Recursive call `clear(node->pLeft)` or `clear(node->pRight)` of
`BST::clear(BNode*)`, guarded by `if (node->pLeft)` or `if (node->pRight)`. -/
def clearKid (rec : BST T → Option Nat → Option (BST T)) (b : BST T) (a : Nat)
    (right : Bool) : Option (BST T) :=
  match load b.mem a with
  | none => none
  | some n =>
    match (if right then n.pRight else n.pLeft) with
    | none => some b
    | some c => rec b (some c)

/-- `BST::clear(BNode* node)`: clear both subtrees, then `erase` the node.
`gas` is the fuel handed to `erase`. -/
def clearNode (gas : Nat) : Nat → BST T → Option Nat → Option (BST T)
  | _, b, none => some b
  | 0, _, some _ => none
  | fuel + 1, b, some a =>
    match clearKid (clearNode gas fuel) b a false with
    | none => none
    | some b1 =>
      match clearKid (clearNode gas fuel) b1 a true with
      | none => none
      | some b2 => (b2.erase gas (some a)).map (fun r => r.1)

/-- `BST::clear()`. -/
def BST.clear (fuel : Nat) (b : BST T) : Option (BST T) :=
  match b.root with
  | none => some b
  | some r => (clearNode fuel fuel b (some r)).map (fun b1 => { b1 with root := none })

/-- `BST::empty`. -/
def BST.isEmpty (b : BST T) : Bool := decide (b.numElements = 0)

/-- `BST::begin`: the returned iterator, `none` for `end()`. -/
def BST.begin (fuel : Nat) (b : BST T) : Option (Option Nat) :=
  if b.isEmpty then some none
  else
    match b.root with
    | none => none
    | some r => (leftmost b.mem fuel r).map some

/-- Place a `BNode*&` refers to: the member `root` of the tree, or the member
`pLeft` or `pRight` of the node at an address. -/
inductive Slot where
  | root : Slot
  | left (a : Nat) : Slot
  | right (a : Nat) : Slot
deriving DecidableEq, Repr

/-- Read the pointer stored in a place. -/
def readSlot (b : BST T) : Slot → Option (Option Nat)
  | Slot.root => some b.root
  | Slot.left a => (load b.mem a).map (fun n => n.pLeft)
  | Slot.right a => (load b.mem a).map (fun n => n.pRight)

/-- Store a pointer in a place. -/
def writeSlot (b : BST T) (slot : Slot) (v : Option Nat) : Option (BST T) :=
  match slot with
  | Slot.root => some { b with root := v }
  | Slot.left a => (setLeft b.mem a v).map (fun m => { b with mem := m })
  | Slot.right a => (setRight b.mem a v).map (fun m => { b with mem := m })

/-- Pointer stored in a place, which is then dereferenced: null is a fault. -/
def derefSlot (b : BST T) (slot : Slot) : Option Nat :=
  match readSlot b slot with
  | some (some d) => some d
  | _ => none

/-- Assign through the pointer stored in a place: `destNode->... = ...`. -/
def writeAt (b : BST T) (slot : Slot) (f : BNode T → BNode T) : Option (BST T) :=
  match derefSlot b slot with
  | none => none
  | some d => (write b.mem d f).map (fun m => { b with mem := m })

/-- First part of `copyTree` for a non-null `srcNode` at `s`: create the
destination node when `destNode` is null, then copy value and colour. -/
def copyHead (b : BST T) (s : Nat) (slot : Slot) : Option (BST T) :=
  match readSlot b slot with
  | none => none
  | some none =>
    -- destNode = new BNode(srcNode->data); destNode->isRed = srcNode->isRed
    match load b.mem s with
    | none => none
    | some sn =>
      let (m1, a) := alloc b.mem (BNode.fresh sn.data)
      match writeSlot { b with mem := m1 } slot (some a) with
      | none => none
      | some b1 =>
        match load b1.mem s with
        | none => none
        | some sn1 => writeAt b1 slot (fun n => { n with isRed := sn1.isRed })
  | some (some _) =>
    -- destNode->data = srcNode->data; destNode->isRed = srcNode->isRed
    match load b.mem s with
    | none => none
    | some sn =>
      match writeAt b slot (fun n => { n with data := sn.data }) with
      | none => none
      | some b1 =>
        match load b1.mem s with
        | none => none
        | some sn1 => writeAt b1 slot (fun n => { n with isRed := sn1.isRed })

/-- Recursive call `copyTree(srcNode->pLeft, destNode->pLeft)`, or the one on
the right. -/
def copyKid (rec : BST T → Option Nat → Slot → Option (BST T)) (b : BST T) (s : Nat)
    (slot : Slot) (right : Bool) : Option (BST T) :=
  match load b.mem s, derefSlot b slot with
  | some sn, some d =>
    if right then rec b sn.pRight (Slot.right d) else rec b sn.pLeft (Slot.left d)
  | _, _ => none

/-- Statement `if (destNode->pLeft) destNode->pLeft->pParent = destNode`, or
the one on the right. -/
def fixParent (b : BST T) (slot : Slot) (right : Bool) : Option (BST T) :=
  match derefSlot b slot with
  | none => none
  | some d =>
    match load b.mem d with
    | none => none
    | some dn =>
      match (if right then dn.pRight else dn.pLeft) with
      | none => some b
      | some c => (setParent b.mem c (some d)).map (fun m => { b with mem := m })

/-- `BST::copyTree(BNode* srcNode, BNode*& destNode)`, a member of the tree
`b` that is assigned to. -/
def copyTree (gas : Nat) : Nat → BST T → Option Nat → Slot → Option (BST T)
  | _, b, none, slot =>
    match readSlot b slot with
    | none => none
    | some d => clearNode gas gas b d
  | 0, _, some _, _ => none
  | fuel + 1, b, some s, slot =>
    match copyHead b s slot with
    | none => none
    | some b1 =>
      match copyKid (copyTree gas fuel) b1 s slot false with
      | none => none
      | some b2 =>
        match copyKid (copyTree gas fuel) b2 s slot true with
        | none => none
        | some b3 =>
          match fixParent b3 slot false with
          | none => none
          | some b4 => fixParent b4 slot true

/-- `BST::operator=(const BST& rhs)` on the tree `b`; `rhs` is given by its
members `root` and `numElements`, its nodes live in the same memory.
`sameObject` says whether `this == &rhs`. -/
def BST.assign (fuel : Nat) (b : BST T) (sameObject : Bool) (rhsRoot : Option Nat)
    (rhsNum : Nat) : Option (BST T) :=
  if sameObject then some b
  else
    match rhsRoot with
    | none => b.clear fuel
    | some _ =>
      (copyTree fuel fuel b rhsRoot Slot.root).map
        (fun b1 => { b1 with numElements := rhsNum })

/-- `BST::BST(const std::initializer_list<T>& il)`: the body does not look at
`il`.  The node made by `new BNode` holds a default-initialised value, given
here as `junk`. -/
def BST.ofList (m : Mem T) (junk : T) (_il : List T) : BST T :=
  let (m1, r) := alloc m (BNode.fresh junk)
  { mem := m1, root := some r, numElements := 99 }

end assignment

section assignList
variable {T : Type} [DecidableEq T] [LT T] [DecidableRel (fun a b : T => a < b)]

/-- `BST::operator=(const std::initializer_list<T>& il)`: a loop of
`insert(t)` over the list. -/
def BST.assignList (fuel : Nat) (b : BST T) (il : List T) : Option (BST T) :=
  BST.insertAll fuel b il

end assignList

section debug
variable {T : Type} [LT T] [DecidableRel (fun a b : T => a < b)]

/-- `BNode::computeSize` of the `DEBUG` build. -/
def computeSize (m : Mem T) : Nat → Nat → Option Nat
  | 0, _ => none
  | fuel + 1, a =>
    match load m a with
    | none => none
    | some n =>
      match (match n.pLeft with
          | none => some 0
          | some l => computeSize m fuel l),
        (match n.pRight with
          | none => some 0
          | some r => computeSize m fuel r) with
      | some k, some j => some (1 + k + j)
      | _, _ => none

/-- `BNode::verifyBTree` of the `DEBUG` build.  The outer `none` is no result
(fuel, or a bad pointer); `some none` is a failed `assert`; otherwise the pair
of extremes is returned. -/
def verifyBTree (m : Mem T) : Nat → Nat → Option (Option (T × T))
  | 0, _ => none
  | fuel + 1, a =>
    match load m a with
    | none => none
    | some n =>
      -- check parent
      match (match n.pParent with
          | none => some true
          | some q => (load m q).map (fun qn =>
              decide (qn.pLeft = some a) || decide (qn.pRight = some a))) with
      | none => none
      | some false => some none
      | some true =>
        -- check left, the smaller sub-tree
        match (match n.pLeft with
            | none => some (some n.data)
            | some l =>
              match load m l with
              | none => none
              | some ln =>
                if n.data < ln.data then some none
                else if ln.pParent ≠ some a then some none
                else
                  match verifyBTree m fuel l with
                  | none => none
                  | some none => some none
                  | some (some p) => if n.data < p.2 then some none else some (some p.1)) with
        | none => none
        | some none => some none
        | some (some lo) =>
          -- check right
          match n.pRight with
          | none => some (some (lo, n.data))
          | some r =>
            match load m r with
            | none => none
            | some rn =>
              if rn.data < n.data then some none
              else if rn.pParent ≠ some a then some none
              else
                match verifyBTree m fuel r with
                | none => none
                | some none => some none
                | some (some p) => if p.1 < n.data then some none else some (some (lo, p.2))

end debug

section shape
variable {T : Type}

/-- Tree laid out in memory, read from a pointer downwards: at each node its
address, its value and its colour. -/
inductive Tree (T : Type) where
  | nil : Tree T
  | node (l : Tree T) (a : Nat) (d : T) (red : Bool) (r : Tree T) : Tree T
deriving DecidableEq, Repr

/-- Read the tree below the pointer `p` by following `pLeft` and `pRight`. -/
def toTree (m : Mem T) : Nat → Option Nat → Option (Tree T)
  | _, none => some Tree.nil
  | 0, some _ => none
  | fuel + 1, some a =>
    match load m a with
    | none => none
    | some n =>
      match toTree m fuel n.pLeft, toTree m fuel n.pRight with
      | some l, some r => some (Tree.node l a n.data n.isRed r)
      | _, _ => none

/-- The pointer `p` leads to exactly the tree `s`: the structure reached through
`pLeft` and `pRight` is finite, hence acyclic. -/
def Repr (m : Mem T) : Option Nat → Tree T → Prop
  | p, Tree.nil => p = none
  | p, Tree.node l a d red r =>
    p = some a ∧ ∃ n, load m a = some n ∧ n.data = d ∧ n.isRed = red ∧
      Repr m n.pLeft l ∧ Repr m n.pRight r

/-- Every node of the tree `s` has the `pParent` the tree gives it; the root of
`s` has `par`. -/
def ParentsOk (m : Mem T) : Option Nat → Tree T → Prop
  | _, Tree.nil => True
  | par, Tree.node l a _ _ r =>
    (∃ n, load m a = some n ∧ n.pParent = par) ∧
      ParentsOk m (some a) l ∧ ParentsOk m (some a) r

/-- Addresses of the nodes, in in-order. -/
def Tree.addrs : Tree T → List Nat
  | Tree.nil => []
  | Tree.node l a _ _ r => l.addrs ++ a :: r.addrs

/-- Values of the nodes, in in-order. -/
def Tree.values : Tree T → List T
  | Tree.nil => []
  | Tree.node l _ d _ r => l.values ++ d :: r.values

/-- Number of nodes on the longest path downwards. -/
def Tree.height : Tree T → Nat
  | Tree.nil => 0
  | Tree.node l _ _ _ r => max l.height r.height + 1

/-- Address of the root node. -/
def Tree.rootAddr : Tree T → Option Nat
  | Tree.nil => none
  | Tree.node _ a _ _ _ => some a

/-- The root node exists and is red. -/
def Tree.isRedRoot : Tree T → Bool
  | Tree.nil => false
  | Tree.node _ _ _ red _ => red

/-- No red node has a red child. -/
def Tree.noRedRed : Tree T → Bool
  | Tree.nil => true
  | Tree.node l _ _ red r =>
    !(red && (l.isRedRoot || r.isRedRoot)) && l.noRedRed && r.noRedRed

/-- Number of black nodes on each path from the root down to a missing child. -/
def Tree.blackPaths : Tree T → List Nat
  | Tree.nil => [0]
  | Tree.node l _ _ red r =>
    (l.blackPaths ++ r.blackPaths).map (fun k => k + (if red then 0 else 1))

/-- Every path from the root down to a missing child passes through the same
number of black nodes. -/
def Tree.balanced (s : Tree T) : Bool :=
  s.blackPaths.all (fun k => s.blackPaths.all (fun j => decide (k = j)))

/-- Colour rules of a red-black tree below the root: no red node has a red
child, and all paths to a missing child have the same number of black nodes. -/
def Tree.colourRules (s : Tree T) : Bool := s.noRedRed && s.balanced

/-- Valid red-black tree: the root is black and the colour rules hold. -/
def Tree.validRB (s : Tree T) : Bool := !s.isRedRoot && s.colourRules

/-- Ordering invariant: at every node no value of the left subtree is greater
and no value of the right subtree is less than the value of the node. -/
def Tree.Ordered [LT T] : Tree T → Prop
  | Tree.nil => True
  | Tree.node l _ d _ r =>
    (∀ x ∈ l.values, ¬ d < x) ∧ (∀ x ∈ r.values, ¬ x < d) ∧ l.Ordered ∧ r.Ordered

/-- The node at address `a` of the tree `s` is a red node without children. -/
def Tree.redLeafAt (a : Nat) : Tree T → Prop
  | Tree.nil => False
  | Tree.node l x _ red r =>
    (x = a ∧ red = true ∧ l = Tree.nil ∧ r = Tree.nil) ∨ l.redLeafAt a ∨ r.redLeafAt a

/-- The tree `s` without the childless node at address `a`. -/
def Tree.dropLeaf (a : Nat) : Tree T → Tree T
  | Tree.nil => Tree.nil
  | Tree.node l x d red r =>
    if x = a then Tree.nil else Tree.node (l.dropLeaf a) x d red (r.dropLeaf a)

/-- A red-black tree held in a `BST`: `root` leads to the tree `s`, no node
occurs twice, every `pParent` points to the parent (null at the root), and `s`
is a valid red-black tree. -/
def BST.HoldsRB (b : BST T) (s : Tree T) : Prop :=
  Repr b.mem b.root s ∧ ParentsOk b.mem none s ∧ s.addrs.Nodup ∧ s.validRB = true

/-- Memory and tree after inserting 2, 1, 3 into an empty tree: a black root
holding 2 with the red leaves 1 and 3. -/
def sampleBST : BST Int :=
  { mem := [some { data := 2, pLeft := some 1, pRight := some 2, pParent := none,
                   isRed := false },
            some { data := 1, pLeft := none, pRight := none, pParent := some 0,
                   isRed := true },
            some { data := 3, pLeft := none, pRight := none, pParent := some 0,
                   isRed := true }],
    root := some 0,
    numElements := 3 }

/-- Shape of `sampleBST`. -/
def sampleTree : Tree Int :=
  Tree.node (Tree.node Tree.nil 1 1 true Tree.nil) 0 2 false
    (Tree.node Tree.nil 2 3 true Tree.nil)

/-- Memory and tree after inserting 2, 1, 3, 0 into an empty tree: a black
root holding 2, its black children 1 and 3, and the red leaf 0 below 1. -/
def sampleBST4 : BST Int :=
  { mem := [some { data := 2, pLeft := some 1, pRight := some 2, pParent := none,
                   isRed := false },
            some { data := 1, pLeft := some 3, pRight := none, pParent := some 0,
                   isRed := false },
            some { data := 3, pLeft := none, pRight := none, pParent := some 0,
                   isRed := false },
            some { data := 0, pLeft := none, pRight := none, pParent := some 1,
                   isRed := true }],
    root := some 0,
    numElements := 4 }

/-- Shape of `sampleBST4`. -/
def sampleTree4 : Tree Int :=
  Tree.node (Tree.node (Tree.node Tree.nil 3 0 true Tree.nil) 1 1 false Tree.nil) 0 2 false
    (Tree.node Tree.nil 2 3 false Tree.nil)

/-- Memory and tree left by erasing the node holding 3 from `sampleBST4`. -/
def erasedBST4 : BST Int :=
  { mem := [some { data := 2, pLeft := some 1, pRight := none, pParent := none,
                   isRed := false },
            some { data := 1, pLeft := some 3, pRight := none, pParent := some 0,
                   isRed := false },
            none,
            some { data := 0, pLeft := none, pRight := none, pParent := some 1,
                   isRed := true }],
    root := some 0,
    numElements := 3 }

/-- Shape of `erasedBST4`. -/
def erasedTree4 : Tree Int :=
  Tree.node (Tree.node (Tree.node Tree.nil 3 0 true Tree.nil) 1 1 false Tree.nil) 0 2 false
    Tree.nil

/-- Two trees have the same shape and, at every position, the same value and
the same colour; the addresses of the nodes may differ. -/
def Tree.SameContent : Tree T → Tree T → Prop
  | Tree.nil, Tree.nil => True
  | Tree.node l _ d red r, Tree.node l1 _ d1 red1 r1 =>
    d = d1 ∧ red = red1 ∧ l.SameContent l1 ∧ r.SameContent r1
  | _, _ => False

/-- The chain of `pParent` pointers from the node at `a`: it passes through
the nodes of the list and ends at a node without parent. -/
def Chain (m : Mem T) : Nat → List Nat → Prop
  | a, [] => ∃ n, load m a = some n ∧ n.pParent = none
  | a, q :: rest => ∃ n, load m a = some n ∧ n.pParent = some q ∧ Chain m q rest

/-- Node `n` after the leaf case of `erase` has disconnected its child `c`. -/
def unlink (n : BNode T) (c : Nat) : BNode T :=
  if n.pLeft = some c then { n with pLeft := none } else { n with pRight := none }

/-- Node that owns a place, if the place is a member of a node. -/
def Slot.owner : Slot → Option Nat
  | Slot.root => none
  | Slot.left q => some q
  | Slot.right q => some q

/-- Node `n` with the pointer `v` stored in the place, when `n` owns it. -/
def Slot.setLink (slot : Slot) (v : Option Nat) (n : BNode T) : BNode T :=
  match slot with
  | Slot.root => n
  | Slot.left _ => { n with pLeft := v }
  | Slot.right _ => { n with pRight := v }

/-- The place `slot` of the tree `b` holds the pointer `dp` to the subtree `d`
whose root has the parent `par`; the owner of the place is a live node outside
`d` whose chain of parents stays outside `d` and is short enough for the fuel
`gas` of `erase`, and a right place does not share its subtree with the left
link of its owner. -/
def SlotReady (gas : Nat) (b : BST T) (slot : Slot) (dp par : Option Nat) (d : Tree T) :
    Prop :=
  match slot with
  | Slot.root => b.root = dp ∧ par = none ∧ d.height + 2 ≤ gas
  | Slot.left q => par = some q ∧ ∃ qn anc, load b.mem q = some qn ∧ qn.pLeft = dp ∧
      Chain b.mem q anc ∧ (∀ y ∈ q :: anc, y ∉ d.addrs) ∧ anc.length + d.height + 2 ≤ gas
  | Slot.right q => par = some q ∧ ∃ qn anc, load b.mem q = some qn ∧ qn.pRight = dp ∧
      (∀ y ∈ d.addrs, qn.pLeft ≠ some y) ∧
      Chain b.mem q anc ∧ (∀ y ∈ q :: anc, y ∉ d.addrs) ∧ anc.length + d.height + 2 ≤ gas

/-- Memory during the insert of 0 into the tree holding 2, 1, 3, after the new
red node (address 3) is linked below the red node holding 1 and before
`balance` runs: its parent (address 1) and its aunt (address 2) are red, its
grandparent (address 0) is the black root. -/
def recolourMem : Mem Int :=
  [some { data := 2, pLeft := some 1, pRight := some 2, pParent := none, isRed := false },
   some { data := 1, pLeft := some 3, pRight := none, pParent := some 0, isRed := true },
   some { data := 3, pLeft := none, pRight := none, pParent := some 0, isRed := true },
   some { data := 0, pLeft := none, pRight := none, pParent := some 1, isRed := true }]

end shape

/-! ## Insertion at concrete inputs -/

/-- C1: the colour rules fail after inserting 2, 1, 3, 0, -1 into an empty
tree.  The rotation of case 4a hangs its top node under the right side of the
great-grandparent although the grandparent was the left child, so the path to
the left child of the root counts one black node and the paths on the right
count two. -/
theorem insert_breaks_colour_rules :
    (BST.insertAll 20 (BST.empty : BST Int) [2, 1, 3, 0, -1]).bind
        (fun b => toTree b.mem 20 b.root)
      = some (Tree.node (Tree.node Tree.nil 1 1 true Tree.nil) 0 2 false
          (Tree.node (Tree.node Tree.nil 4 (-1) true Tree.nil) 3 0 false
            (Tree.node Tree.nil 1 1 true Tree.nil)))
    ∧ (BST.insertAll 20 (BST.empty : BST Int) [2, 1, 3, 0, -1]).bind
        (fun b => (toTree b.mem 20 b.root).map
          (fun s => (s.blackPaths, s.balanced, s.colourRules)))
      = some ([1, 1, 2, 2, 2, 2], false, false) := by
  decide

/-- C2: after inserting 3, 2, 1 into an empty tree the node `root` points to is
red: case 4a of `balance` rotates at the root and leaves `root` on the old
root node, which the rotation has coloured red. -/
theorem insert_leaves_red_root :
    (BST.insertAll 20 (BST.empty : BST Int) [3, 2, 1]).bind
        (fun b => redOf b.mem b.root) = some true
    ∧ BST.insertAll 20 (BST.empty : BST Int) [3, 2, 1] = some
        { mem := [some { data := 3, pLeft := none, pRight := none, pParent := some 1,
                         isRed := true },
                  some { data := 2, pLeft := some 2, pRight := some 0, pParent := none,
                         isRed := false },
                  some { data := 1, pLeft := none, pRight := none, pParent := some 1,
                         isRed := true }],
          root := some 0,
          numElements := 3 } := by
  decide

/-- C3: after inserting 1, 2, 3 into an empty tree `verifyBTree` fails an
assertion at the root: case 4b of `balance` copies the new top node over the
old root node, whose left child is then the root itself and whose right child
still has the copied node as parent. -/
theorem insert_breaks_verifyBTree :
    (BST.insertAll 20 (BST.empty : BST Int) [1, 2, 3]).bind
        (fun b => b.root.bind (fun r => verifyBTree b.mem 20 r)) = some none
    ∧ BST.insertAll 20 (BST.empty : BST Int) [1, 2, 3] = some
        { mem := [some { data := 2, pLeft := some 0, pRight := some 2, pParent := none,
                         isRed := false },
                  some { data := 2, pLeft := some 0, pRight := some 2, pParent := none,
                         isRed := false },
                  some { data := 3, pLeft := none, pRight := none, pParent := some 1,
                         isRed := true }],
          root := some 0,
          numElements := 3 } := by
  decide

/-- C4: after inserting 3, 2, 1 into an empty tree `find(1)` returns `end()`,
and so does `find(2)`: only the node holding 3 is left below `root`. -/
theorem find_misses_inserted_value :
    (BST.insertAll 20 (BST.empty : BST Int) [3, 2, 1]).bind (fun b => b.find 20 1)
      = some none
    ∧ (BST.insertAll 20 (BST.empty : BST Int) [3, 2, 1]).bind (fun b => b.find 20 2)
      = some none
    ∧ (BST.insertAll 20 (BST.empty : BST Int) [3, 2, 1]).bind (fun b => b.find 20 3)
      = some (some 0) := by
  decide

/-- C5: inserting 1, 3 and then 2 returns from the third insert the pair
(`end()`, true): the returned iterator is read from `pCurrent->pLeft` after
`balance` (case 4d) has moved the new node away from there. -/
theorem insert_returns_end :
    (BST.insertAll 20 (BST.empty : BST Int) [1, 3]).bind
        (fun b => (b.insert 20 2 false).map (fun r => r.2)) = some (none, true) := by
  decide

/-- C6: after inserting 3, 2, 1 into an empty tree `size()` is 3, the three
inserts returned true, and `root->computeSize()` is 1. -/
theorem size_differs_from_computeSize :
    (BST.insertAll 20 (BST.empty : BST Int) [3, 2, 1]).bind
        (fun b => b.root.bind (fun r => (computeSize b.mem 20 r).map (fun k => (b.size, k))))
      = some (3, 1)
    ∧ ((BST.empty : BST Int).insert 20 3 false).map (fun r => r.2.2) = some true
    ∧ (BST.insertAll 20 (BST.empty : BST Int) [3]).bind
        (fun b => (b.insert 20 2 false).map (fun r => r.2.2)) = some true
    ∧ (BST.insertAll 20 (BST.empty : BST Int) [3, 2]).bind
        (fun b => (b.insert 20 1 false).map (fun r => r.2.2)) = some true := by
  decide

/-! ## Memory, trees in memory, and the climbing loop -/

section shapeFacts
variable {T : Type}

theorem Repr.root_eq {m : Mem T} {p : Option Nat} {s : Tree T} (h : Repr m p s) :
    p = s.rootAddr := by
  cases s with
  | nil => simpa [Repr, Tree.rootAddr] using h
  | node l a d red r => exact h.1

theorem Tree.values_ne_nil_rootAddr {s : Tree T} {t : T} (h : t ∈ s.values) :
    ∃ a, s.rootAddr = some a := by
  cases s with
  | nil => simp [Tree.values] at h
  | node l a d red r => exact ⟨a, rfl⟩

theorem load_lt {m : Mem T} {a : Nat} {n : BNode T} (h : load m a = some n) :
    a < m.length := by
  unfold load at h
  split at h
  · rename_i heq
    exact (List.getElem?_eq_some.mp heq).1
  · cases h

/-- Reading after an assignment through `a`. -/
theorem load_write {m m1 : Mem T} {a : Nat} {f : BNode T → BNode T}
    (h : write m a f = some m1) (x : Nat) :
    load m1 x = if x = a then (load m a).map f else load m x := by
  unfold write at h
  cases hl : load m a with
  | none => rw [hl] at h; cases h
  | some n =>
    rw [hl] at h
    cases h
    have hlt := load_lt hl
    by_cases hx : x = a
    · subst hx
      simp [load, List.getElem?_set_self hlt]
    · have hne : a ≠ x := fun e => hx e.symm
      simp [load, List.getElem?_set_ne hne, hx]

theorem write_of_load {m : Mem T} {a : Nat} {n : BNode T} (f : BNode T → BNode T)
    (h : load m a = some n) : ∃ m1, write m a f = some m1 := by
  unfold write
  rw [h]
  exact ⟨_, rfl⟩

/-- Reading after `delete a`. -/
theorem load_dealloc {m m1 : Mem T} {a : Nat} (h : dealloc m a = some m1) (x : Nat) :
    load m1 x = if x = a then none else load m x := by
  unfold dealloc at h
  cases hl : load m a with
  | none => rw [hl] at h; cases h
  | some n =>
    rw [hl] at h
    cases h
    have hlt := load_lt hl
    by_cases hx : x = a
    · subst hx
      simp [load, List.getElem?_set_self hlt]
    · have hne : a ≠ x := fun e => hx e.symm
      simp [load, List.getElem?_set_ne hne, hx]

theorem dealloc_of_load {m : Mem T} {a : Nat} {n : BNode T}
    (h : load m a = some n) : ∃ m1, dealloc m a = some m1 := by
  unfold dealloc
  rw [h]
  exact ⟨_, rfl⟩

/-- Frame rule: a tree is still there when none of its nodes was written. -/
theorem repr_frame {m m1 : Mem T} :
    ∀ (s : Tree T) (p : Option Nat), (∀ x ∈ s.addrs, load m1 x = load m x) →
      Repr m p s → Repr m1 p s := by
  intro s
  induction s with
  | nil => intro p _ h; exact h
  | node l a d red r ihl ihr =>
    intro p hsame h
    obtain ⟨hp, n, hload, hd, hc, hl, hr⟩ := h
    refine ⟨hp, n, ?_, hd, hc, ?_, ?_⟩
    · rw [hsame a (by simp [Tree.addrs])]; exact hload
    · exact ihl _ (fun x hx => hsame x (by simp [Tree.addrs, hx])) hl
    · exact ihr _ (fun x hx => hsame x (by simp [Tree.addrs, hx])) hr

theorem parentsOk_frame {m m1 : Mem T} :
    ∀ (s : Tree T) (par : Option Nat), (∀ x ∈ s.addrs, load m1 x = load m x) →
      ParentsOk m par s → ParentsOk m1 par s := by
  intro s
  induction s with
  | nil => intro p _ h; exact h
  | node l a d red r ihl ihr =>
    intro par hsame h
    obtain ⟨⟨n, hload, hpar⟩, hl, hr⟩ := h
    refine ⟨⟨n, ?_, hpar⟩, ?_, ?_⟩
    · rw [hsame a (by simp [Tree.addrs])]; exact hload
    · exact ihl _ (fun x hx => hsame x (by simp [Tree.addrs, hx])) hl
    · exact ihr _ (fun x hx => hsame x (by simp [Tree.addrs, hx])) hr

/-- A pointer leads to at most one tree. -/
theorem Repr.unique {m : Mem T} :
    ∀ (s s1 : Tree T) (p : Option Nat), Repr m p s → Repr m p s1 → s = s1 := by
  intro s
  induction s with
  | nil =>
    intro s1 p h h1
    have hp : p = none := h
    cases s1 with
    | nil => rfl
    | node l a d red r =>
      have := h1.1
      rw [hp] at this
      cases this
  | node l a d red r ihl ihr =>
    intro s1 p h h1
    obtain ⟨hp, n, hload, hd, hc, hl, hr⟩ := h
    cases s1 with
    | nil =>
      have hp1 : p = none := h1
      rw [hp1] at hp
      cases hp
    | node l1 a1 d1 red1 r1 =>
      obtain ⟨hp1, n1, hload1, hd1, hc1, hl1, hr1⟩ := h1
      rw [hp] at hp1
      cases hp1
      rw [hload] at hload1
      cases hload1
      rw [ihl l1 _ hl hl1, ihr r1 _ hr hr1, ← hd, ← hc, hd1, hc1]

theorem Tree.rootAddr_mem {s : Tree T} {a : Nat} (h : s.rootAddr = some a) :
    a ∈ s.addrs := by
  cases s with
  | nil => cases h
  | node l x d red r =>
    simp only [Tree.rootAddr, Option.some.injEq] at h
    simp [Tree.addrs, h]

theorem Tree.redLeafAt_mem {a : Nat} :
    ∀ {s : Tree T}, s.redLeafAt a → a ∈ s.addrs := by
  intro s
  induction s with
  | nil => intro h; cases h
  | node l x d red r ihl ihr =>
    intro h
    rcases h with h | h | h
    · simp [Tree.addrs, h.1]
    · simp [Tree.addrs, ihl h]
    · simp [Tree.addrs, ihr h]

theorem Tree.dropLeaf_of_not_mem {a : Nat} :
    ∀ {s : Tree T}, a ∉ s.addrs → s.dropLeaf a = s := by
  intro s
  induction s with
  | nil => intro _; rfl
  | node l x d red r ihl ihr =>
    intro h
    simp only [Tree.addrs, List.mem_append, List.mem_cons, not_or] at h
    obtain ⟨hl, hx, hr⟩ := h
    have hxa : ¬ x = a := fun e => hx e.symm
    simp [Tree.dropLeaf, hxa, ihl hl, ihr hr]

theorem Tree.dropLeaf_addrs_sublist (a : Nat) :
    ∀ (s : Tree T), (s.dropLeaf a).addrs.Sublist s.addrs := by
  intro s
  induction s with
  | nil => exact List.Sublist.refl _
  | node l x d red r ihl ihr =>
    by_cases hx : x = a
    · simp [Tree.dropLeaf, hx, Tree.addrs]
    · simp only [Tree.dropLeaf, hx, if_false, Tree.addrs]
      exact List.Sublist.append ihl (List.Sublist.cons₂ x ihr)

/-- Facts about a node of a tree whose addresses are all different: the
subtrees are disjoint and do not hold the root. -/
theorem Tree.nodup_node {l r : Tree T} {x : Nat} {d : T} {red : Bool}
    (h : (Tree.node l x d red r).addrs.Nodup) :
    l.addrs.Nodup ∧ r.addrs.Nodup ∧ x ∉ l.addrs ∧ x ∉ r.addrs ∧
      (∀ y ∈ l.addrs, y ∉ r.addrs) := by
  simp only [Tree.addrs] at h
  rw [List.nodup_append] at h
  obtain ⟨h1, h2, h3⟩ := h
  rw [List.nodup_cons] at h2
  refine ⟨h1, h2.2, ?_, h2.1, ?_⟩
  · intro hx
    exact h3 hx (by simp)
  · intro y hy hyr
    exact h3 hy (by simp [hyr])

theorem Repr.eq_nil {m : Mem T} {s : Tree T} (h : Repr m none s) : s = Tree.nil := by
  cases s with
  | nil => rfl
  | node l a d red r => cases h.1

theorem Tree.isRedRoot_dropLeaf (a : Nat) (s : Tree T)
    (h : (s.dropLeaf a).isRedRoot = true) : s.isRedRoot = true := by
  cases s with
  | nil => exact h
  | node l x d red r =>
    by_cases hx : x = a
    · simp [Tree.dropLeaf, hx, Tree.isRedRoot] at h
    · simpa [Tree.dropLeaf, hx, Tree.isRedRoot] using h

theorem Tree.noRedRed_dropLeaf (a : Nat) :
    ∀ (s : Tree T), s.noRedRed = true → (s.dropLeaf a).noRedRed = true := by
  intro s
  induction s with
  | nil => intro h; exact h
  | node l x d red r ihl ihr =>
    intro h
    by_cases hx : x = a
    · simp [Tree.dropLeaf, hx, Tree.noRedRed]
    · simp only [Tree.noRedRed, Bool.and_eq_true, Bool.not_eq_true', Bool.and_eq_false_iff,
        Bool.or_eq_false_iff] at h
      obtain ⟨⟨hc, hl⟩, hr⟩ := h
      simp only [Tree.dropLeaf, hx, if_false, Tree.noRedRed, Bool.and_eq_true,
        Bool.not_eq_true', Bool.and_eq_false_iff, Bool.or_eq_false_iff]
      refine ⟨⟨?_, ihl hl⟩, ihr hr⟩
      rcases hc with hc | ⟨h1, h2⟩
      · exact Or.inl hc
      · right
        constructor
        · cases hd : (l.dropLeaf a).isRedRoot with
          | false => rfl
          | true => rw [Tree.isRedRoot_dropLeaf a l hd] at h1; cases h1
        · cases hd : (r.dropLeaf a).isRedRoot with
          | false => rfl
          | true => rw [Tree.isRedRoot_dropLeaf a r hd] at h2; cases h2

/-- Dropping a red node without children leaves the black counts of the paths
as they were. -/
theorem Tree.blackPaths_dropLeaf {a : Nat} :
    ∀ {s : Tree T}, s.addrs.Nodup → s.redLeafAt a →
      ∀ k, k ∈ (s.dropLeaf a).blackPaths ↔ k ∈ s.blackPaths := by
  intro s
  induction s with
  | nil => intro _ h; cases h
  | node l x d red r ihl ihr =>
    intro hnd h k
    obtain ⟨hndl, hndr, hxl, hxr, hdisj⟩ := Tree.nodup_node hnd
    rcases h with ⟨hx, hred, hl, hr⟩ | h | h
    · subst hx hl hr
      simp [Tree.dropLeaf, Tree.blackPaths, hred]
    · have hal := Tree.redLeafAt_mem h
      have hxa : ¬ x = a := fun e => hxl (e ▸ hal)
      have har : a ∉ r.addrs := hdisj a hal
      simp only [Tree.dropLeaf, hxa, if_false, Tree.blackPaths, List.mem_map,
        List.mem_append, Tree.dropLeaf_of_not_mem har, ihl hndl h]
    · have har := Tree.redLeafAt_mem h
      have hxa : ¬ x = a := fun e => hxr (e ▸ har)
      have hal : a ∉ l.addrs := fun hl => hdisj a hl har
      simp only [Tree.dropLeaf, hxa, if_false, Tree.blackPaths, List.mem_map,
        List.mem_append, Tree.dropLeaf_of_not_mem hal, ihr hndr h]

theorem Tree.balanced_iff (s : Tree T) :
    s.balanced = true ↔ ∀ k ∈ s.blackPaths, ∀ j ∈ s.blackPaths, k = j := by
  simp [Tree.balanced, List.all_eq_true]

/-- Dropping a red node without children from a valid red-black tree leaves a
valid red-black tree. -/
theorem Tree.validRB_dropLeaf {a : Nat} {s : Tree T} (hnd : s.addrs.Nodup)
    (hleaf : s.redLeafAt a) (h : s.validRB = true) : (s.dropLeaf a).validRB = true := by
  simp only [Tree.validRB, Tree.colourRules, Bool.and_eq_true, Bool.not_eq_true'] at h ⊢
  obtain ⟨hroot, hrr, hbal⟩ := h
  refine ⟨?_, Tree.noRedRed_dropLeaf a s hrr, ?_⟩
  · cases hd : (s.dropLeaf a).isRedRoot with
    | false => rfl
    | true => rw [Tree.isRedRoot_dropLeaf a s hd] at hroot; cases hroot
  · rw [Tree.balanced_iff] at hbal ⊢
    intro k hk j hj
    exact hbal k ((Tree.blackPaths_dropLeaf hnd hleaf k).mp hk) j
      ((Tree.blackPaths_dropLeaf hnd hleaf j).mp hj)

/-- Every node of a tree with consistent parents is live, and its `pParent` is
the parent of the whole tree (at the root) or a node of the tree of which it
is a child. -/
theorem parent_in_tree {m : Mem T} :
    ∀ (s : Tree T) (p par : Option Nat), Repr m p s → ParentsOk m par s →
      ∀ a ∈ s.addrs, ∃ n, load m a = some n ∧
        ((s.rootAddr = some a ∧ n.pParent = par) ∨
          ∃ q qn, n.pParent = some q ∧ q ∈ s.addrs ∧ load m q = some qn ∧
            (qn.pLeft = some a ∨ qn.pRight = some a)) := by
  intro s
  induction s with
  | nil => intro p par _ _ a ha; simp [Tree.addrs] at ha
  | node l x d red r ihl ihr =>
    intro p par hr hp a ha
    obtain ⟨_, nx, hloadx, _, _, hl, hrr⟩ := hr
    obtain ⟨⟨nx1, hloadx1, hparx⟩, hpl, hpr⟩ := hp
    rw [hloadx] at hloadx1
    cases hloadx1
    simp only [Tree.addrs, List.mem_append, List.mem_cons] at ha
    rcases ha with ha | ha | ha
    · obtain ⟨n, hn, hcase⟩ := ihl _ _ hl hpl a ha
      refine ⟨n, hn, Or.inr ?_⟩
      rcases hcase with ⟨hroot, hpar⟩ | ⟨q, qn, h1, h2, h3, h4⟩
      · refine ⟨x, nx, hpar, by simp [Tree.addrs], hloadx, Or.inl ?_⟩
        rw [hl.root_eq, hroot]
      · exact ⟨q, qn, h1, by simp [Tree.addrs, h2], h3, h4⟩
    · subst ha
      exact ⟨nx, hloadx, Or.inl ⟨rfl, hparx⟩⟩
    · obtain ⟨n, hn, hcase⟩ := ihr _ _ hrr hpr a ha
      refine ⟨n, hn, Or.inr ?_⟩
      rcases hcase with ⟨hroot, hpar⟩ | ⟨q, qn, h1, h2, h3, h4⟩
      · refine ⟨x, nx, hpar, by simp [Tree.addrs], hloadx, Or.inr ?_⟩
        rw [hrr.root_eq, hroot]
      · exact ⟨q, qn, h1, by simp [Tree.addrs, h2], h3, h4⟩

/-- The climbing loop of `operator++` ends inside a tree with consistent
parents, given that it ends from the root of the tree. -/
theorem climbRight_defined {m : Mem T} :
    ∀ (s : Tree T) (p par : Option Nat) (c : Nat), Repr m p s → ParentsOk m par s →
      s.addrs.Nodup →
      (∀ x, s.rootAddr = some x → ∀ f, c ≤ f → ∃ q, climbRight m (f + 1) x = some q) →
      ∀ a ∈ s.addrs, ∀ f, c + s.height ≤ f → ∃ q, climbRight m f a = some q := by
  intro s
  induction s with
  | nil => intro p par c _ _ _ _ a ha; simp [Tree.addrs] at ha
  | node l x d red r ihl ihr =>
    intro p par c hr hp hnd hroot a ha f hf
    obtain ⟨_, nx, hloadx, _, _, hl, hrr⟩ := hr
    obtain ⟨_, hpl, hpr⟩ := hp
    obtain ⟨hndl, hndr, hxl, hxr, hdisj⟩ := Tree.nodup_node hnd
    simp only [Tree.height] at hf
    simp only [Tree.addrs, List.mem_append, List.mem_cons] at ha
    rcases ha with ha | ha | ha
    · refine ihl _ _ 0 hl hpl hndl ?_ a ha f (by omega)
      intro y hy g _
      obtain ⟨ny, hloady, hcase⟩ := parent_in_tree l _ _ hl hpl y (Tree.rootAddr_mem hy)
      have hpy : ny.pParent = some x := by
        cases l with
        | nil => cases hy
        | node ll y1 dl redl rl =>
          simp only [Tree.rootAddr, Option.some.injEq] at hy
          subst hy
          obtain ⟨⟨n1, h1, h2⟩, _, _⟩ := hpl
          rw [hloady] at h1
          cases h1
          exact h2
      have hne : ¬ nx.pRight = some y := by
        intro e
        have : r.rootAddr = some y := by rw [← hrr.root_eq, e]
        exact hdisj y (Tree.rootAddr_mem hy) (Tree.rootAddr_mem this)
      exact ⟨y, by simp [climbRight, hloady, hpy, hloadx, hne]⟩
    · subst ha
      obtain ⟨g, hg⟩ : ∃ g, f = g + 1 := ⟨f - 1, by omega⟩
      subst hg
      exact hroot a rfl g (by omega)
    · refine ihr _ _ (c + 1) hrr hpr hndr ?_ a ha f (by omega)
      intro y hy g hg
      obtain ⟨ny, hloady, hcase⟩ := parent_in_tree r _ _ hrr hpr y (Tree.rootAddr_mem hy)
      have hpy : ny.pParent = some x := by
        cases r with
        | nil => cases hy
        | node rl y1 dr redr rr =>
          simp only [Tree.rootAddr, Option.some.injEq] at hy
          subst hy
          obtain ⟨⟨n1, h1, h2⟩, _, _⟩ := hpr
          rw [hloady] at h1
          cases h1
          exact h2
      have heq : nx.pRight = some y := by rw [hrr.root_eq, hy]
      obtain ⟨g1, hg1⟩ : ∃ g1, g = g1 + 1 := ⟨g - 1, by omega⟩
      subst hg1
      obtain ⟨q, hq⟩ := hroot x rfl g1 (by omega)
      exact ⟨q, by simp [climbRight, hloady, hpy, hloadx, heq] at hq ⊢; exact hq⟩

/-- The climbing loop ends on a live node. -/
theorem climbRight_live {m : Mem T} :
    ∀ (f a q : Nat), climbRight m f a = some q → ∃ qn, load m q = some qn := by
  intro f
  induction f with
  | zero => intro a q h; simp [climbRight] at h
  | succ f ih =>
    intro a q h
    unfold climbRight at h
    cases hl : load m a with
    | none => simp [hl] at h
    | some n =>
      simp only [hl] at h
      cases hp : n.pParent with
      | none =>
        simp only [hp] at h
        cases h
        exact ⟨n, hl⟩
      | some y =>
        simp only [hp] at h
        cases hy : load m y with
        | none => simp [hy] at h
        | some yn =>
          simp only [hy] at h
          split at h
          · exact ih _ _ h
          · cases h
            exact ⟨n, hl⟩

/-- Memory after the leaf case of `erase`: the parent `q` of the childless node
`a` has lost its link to `a`, and `a` is deleted.  The tree below any pointer
other than `a` is the old one without `a`. -/
theorem dropLeaf_repr {m m2 : Mem T} {a q : Nat} {n qn : BNode T}
    (hload : load m a = some n) (hpar : n.pParent = some q) (hq : load m q = some qn)
    (hm2 : ∀ x, load m2 x = if x = a then none else if x = q then
        some (if qn.pLeft = some a then { qn with pLeft := none }
          else { qn with pRight := none }) else load m x) :
    ∀ (s : Tree T) (p par : Option Nat), Repr m p s → ParentsOk m par s → s.addrs.Nodup →
      a ∈ s.addrs → p ≠ some a →
      Repr m2 p (s.dropLeaf a) ∧ ParentsOk m2 par (s.dropLeaf a) := by
  intro s
  induction s with
  | nil => intro p par _ _ _ ha; simp [Tree.addrs] at ha
  | node l x d red r ihl ihr =>
    intro p par hr hp hnd ha hpa
    obtain ⟨hpx, nx, hloadx, hd, hc, hl, hrr⟩ := hr
    obtain ⟨⟨nx1, hloadx1, hparx⟩, hpl, hpr⟩ := hp
    rw [hloadx] at hloadx1
    cases hloadx1
    obtain ⟨hndl, hndr, hxl, hxr, hdisj⟩ := Tree.nodup_node hnd
    have hxa : ¬ x = a := fun e => hpa (by rw [hpx, e])
    have hax : ¬ a = x := fun e => hxa e.symm
    simp only [Tree.addrs, List.mem_append, List.mem_cons] at ha
    simp only [Tree.dropLeaf, hxa, if_false]
    rcases ha with ha | ha | ha
    · -- the node is in the left subtree
      have har : a ∉ r.addrs := hdisj a ha
      rw [Tree.dropLeaf_of_not_mem har]
      by_cases hroot : nx.pLeft = some a
      · -- the node is the left child of `x`
        rw [hroot] at hl
        have hlnil : l.dropLeaf a = Tree.nil := by
          cases l with
          | nil => rfl
          | node ll y dl redl rl =>
            have hy : some a = some y := hl.1
            cases hy
            simp [Tree.dropLeaf]
        have hqx : q = x := by
          cases l with
          | nil => cases hl
          | node ll y dl redl rl =>
            have hy : some a = some y := hl.1
            cases hy
            obtain ⟨⟨n1, h1, h2⟩, _, _⟩ := hpl
            rw [hload] at h1
            cases h1
            rw [hpar] at h2
            exact Option.some.inj h2
        subst hqx
        rw [hloadx] at hq
        cases hq
        have hsame : ∀ y ∈ r.addrs, load m2 y = load m y := by
          intro y hy
          have h1 : ¬ y = a := fun e => har (e ▸ hy)
          have h2 : ¬ y = q := fun e => hxr (e ▸ hy)
          rw [hm2 y, if_neg h1, if_neg h2]
        have hx2 : load m2 q = some { qn with pLeft := none } := by
          rw [hm2 q, if_neg hxa, if_pos rfl, if_pos hroot]
        rw [hlnil]
        exact ⟨⟨hpx, _, hx2, hd, hc, rfl, repr_frame r _ hsame hrr⟩,
          ⟨_, hx2, hparx⟩, trivial, parentsOk_frame r _ hsame hpr⟩
      · -- the node is deeper in the left subtree
        have hpl1 : nx.pLeft ≠ some a := hroot
        obtain ⟨n1, hn1, hcase⟩ := parent_in_tree l _ _ hl hpl a ha
        rw [hload] at hn1
        cases hn1
        have hql : q ∈ l.addrs := by
          rcases hcase with ⟨h1, _⟩ | ⟨q1, _, h1, h2, _, _⟩
          · exact absurd (by rw [hl.root_eq, h1]) hroot
          · rw [hpar] at h1
            cases h1
            exact h2
        have hxq : ¬ x = q := fun e => hxl (e ▸ hql)
        obtain ⟨ih1, ih2⟩ := ihl _ _ hl hpl hndl ha hpl1
        have hsame : ∀ y ∈ r.addrs, load m2 y = load m y := by
          intro y hy
          have h1 : ¬ y = a := fun e => har (e ▸ hy)
          have h2 : ¬ y = q := fun e => hdisj q hql (e ▸ hy)
          rw [hm2 y, if_neg h1, if_neg h2]
        have hx2 : load m2 x = some nx := by
          rw [hm2 x, if_neg hxa, if_neg hxq, hloadx]
        exact ⟨⟨hpx, _, hx2, hd, hc, ih1, repr_frame r _ hsame hrr⟩,
          ⟨_, hx2, hparx⟩, ih2, parentsOk_frame r _ hsame hpr⟩
    · exact absurd ha hax
    · -- the node is in the right subtree
      have hal : a ∉ l.addrs := fun h => hdisj a h ha
      rw [Tree.dropLeaf_of_not_mem hal]
      have hleft : ¬ nx.pLeft = some a := by
        intro e
        have : l.rootAddr = some a := by rw [← hl.root_eq, e]
        exact hal (Tree.rootAddr_mem this)
      by_cases hroot : nx.pRight = some a
      · -- the node is the right child of `x`
        rw [hroot] at hrr
        have hrnil : r.dropLeaf a = Tree.nil := by
          cases r with
          | nil => rfl
          | node rl y dr redr rr =>
            have hy : some a = some y := hrr.1
            cases hy
            simp [Tree.dropLeaf]
        have hqx : q = x := by
          cases r with
          | nil => cases hrr
          | node rl y dr redr rr =>
            have hy : some a = some y := hrr.1
            cases hy
            obtain ⟨⟨n1, h1, h2⟩, _, _⟩ := hpr
            rw [hload] at h1
            cases h1
            rw [hpar] at h2
            exact Option.some.inj h2
        subst hqx
        rw [hloadx] at hq
        cases hq
        have hsame : ∀ y ∈ l.addrs, load m2 y = load m y := by
          intro y hy
          have h1 : ¬ y = a := fun e => hal (e ▸ hy)
          have h2 : ¬ y = q := fun e => hxl (e ▸ hy)
          rw [hm2 y, if_neg h1, if_neg h2]
        have hx2 : load m2 q = some { qn with pRight := none } := by
          rw [hm2 q, if_neg hxa, if_pos rfl, if_neg hleft]
        rw [hrnil]
        exact ⟨⟨hpx, _, hx2, hd, hc, repr_frame l _ hsame hl, rfl⟩,
          ⟨_, hx2, hparx⟩, parentsOk_frame l _ hsame hpl, trivial⟩
      · -- the node is deeper in the right subtree
        have hpr1 : nx.pRight ≠ some a := hroot
        obtain ⟨n1, hn1, hcase⟩ := parent_in_tree r _ _ hrr hpr a ha
        rw [hload] at hn1
        cases hn1
        have hqr : q ∈ r.addrs := by
          rcases hcase with ⟨h1, _⟩ | ⟨q1, _, h1, h2, _, _⟩
          · exact absurd (by rw [hrr.root_eq, h1]) hroot
          · rw [hpar] at h1
            cases h1
            exact h2
        have hxq : ¬ x = q := fun e => hxr (e ▸ hqr)
        obtain ⟨ih1, ih2⟩ := ihr _ _ hrr hpr hndr ha hpr1
        have hsame : ∀ y ∈ l.addrs, load m2 y = load m y := by
          intro y hy
          have h1 : ¬ y = a := fun e => hal (e ▸ hy)
          have h2 : ¬ y = q := fun e => hdisj y hy (e ▸ hqr)
          rw [hm2 y, if_neg h1, if_neg h2]
        have hx2 : load m2 x = some nx := by
          rw [hm2 x, if_neg hxa, if_neg hxq, hloadx]
        exact ⟨⟨hpx, _, hx2, hd, hc, repr_frame l _ hsame hl, ih1⟩,
          ⟨_, hx2, hparx⟩, parentsOk_frame l _ hsame hpl, ih2⟩

/-- The node at a red leaf of the tree is live, red and without children. -/
theorem redLeaf_node {m : Mem T} {a : Nat} :
    ∀ (s : Tree T) (p : Option Nat), Repr m p s → s.redLeafAt a →
      ∃ n, load m a = some n ∧ n.pLeft = none ∧ n.pRight = none ∧ n.isRed = true := by
  intro s
  induction s with
  | nil => intro p _ h; cases h
  | node l x d red r ihl ihr =>
    intro p hr h
    obtain ⟨_, nx, hloadx, _, hc, hl, hrr⟩ := hr
    rcases h with ⟨hx, hred, hln, hrn⟩ | h | h
    · subst hx hln hrn
      exact ⟨nx, hloadx, hl, hrr, by rw [hc, hred]⟩
    · exact ihl _ hl h
    · exact ihr _ hrr h

/-- From a node without right child, `operator++` ends on a tree with
consistent parents. -/
theorem increment_defined_of_no_right {m : Mem T} {s : Tree T} {p : Option Nat}
    {a fuel : Nat} {n : BNode T} (hrepr : Repr m p s) (hpar : ParentsOk m none s)
    (hnd : s.addrs.Nodup) (ha : a ∈ s.addrs) (hn : load m a = some n)
    (hnr : n.pRight = none) (hf : s.height ≤ fuel) :
    ∃ next, increment m fuel (some a) = some next := by
  obtain ⟨n1, hn1, hcase⟩ := parent_in_tree s _ _ hrepr hpar a ha
  rw [hn] at hn1
  cases hn1
  rcases hcase with ⟨_, hp⟩ | ⟨q, qn, hp, _, hq, _⟩
  · exact ⟨some a, by simp [increment, hn, hnr, hp]⟩
  · by_cases hleft : qn.pLeft = some a
    · exact ⟨some q, by simp [increment, hn, hnr, hp, hq, hleft]⟩
    · by_cases hright : qn.pRight = some a
      · have hclimb : ∃ top, climbRight m fuel a = some top := by
          refine climbRight_defined s _ _ 0 hrepr hpar hnd ?_ a ha fuel (by omega)
          intro x hx f _
          obtain ⟨nx, hnx, hc⟩ := parent_in_tree s _ _ hrepr hpar x (Tree.rootAddr_mem hx)
          have hpx : nx.pParent = none := by
            cases s with
            | nil => cases hx
            | node l y d red r =>
              simp only [Tree.rootAddr, Option.some.injEq] at hx
              subst hx
              obtain ⟨⟨n2, h1, h2⟩, _, _⟩ := hpar
              rw [hnx] at h1
              cases h1
              exact h2
          exact ⟨x, by simp [climbRight, hnx, hpx]⟩
        obtain ⟨top, htop⟩ := hclimb
        obtain ⟨tn, htn⟩ := climbRight_live _ _ _ htop
        exact ⟨tn.pParent, by simp [increment, hn, hnr, hp, hq, hleft, hright, htop, htn]⟩
      · exact ⟨some a, by simp [increment, hn, hnr, hp, hq, hleft, hright]⟩

end shapeFacts

/-! ## Searching a tree that satisfies the ordering invariant -/

section search
variable {T : Type} [LinearOrder T]

/-- Loop of `find` on the tree below `p`: with fuel for the height of the tree
it ends at a node holding `t` when the tree has one, and at null otherwise. -/
theorem findLoop_spec (m : Mem T) (t : T) :
    ∀ (s : Tree T) (p : Option Nat) (fuel : Nat),
      Repr m p s → s.Ordered → s.height ≤ fuel →
      (t ∈ s.values → ∃ a n, findLoop m t fuel p = some (some a) ∧ a ∈ s.addrs ∧
          load m a = some n ∧ n.data = t) ∧
      (t ∉ s.values → findLoop m t fuel p = some none) := by
  intro s
  induction s with
  | nil =>
    intro p fuel hr _ _
    have hp : p = none := by simpa [Repr] using hr
    subst hp
    constructor
    · intro h; simp [Tree.values] at h
    · intro _; cases fuel <;> rfl
  | node l a d red r ihl ihr =>
    intro p fuel hr ho hf
    obtain ⟨hp, n, hload, hd, _, hl, hrr⟩ := hr
    obtain ⟨hol, hor, hOl, hOr⟩ := ho
    subst hp
    cases fuel with
    | zero => simp [Tree.height] at hf
    | succ f =>
      have hfl : l.height ≤ f := by
        simp only [Tree.height] at hf; omega
      have hfr : r.height ≤ f := by
        simp only [Tree.height] at hf; omega
      by_cases htd : t = d
      · have heq : findLoop m t (f + 1) (some a) = some (some a) := by
          simp [findLoop, hload, hd, htd]
        constructor
        · intro _
          exact ⟨a, n, heq, by simp [Tree.addrs], hload, by rw [hd, htd]⟩
        · intro hnot
          exact absurd (by simp [Tree.values, htd]) hnot
      · by_cases hlt : t < d
        · have heq : findLoop m t (f + 1) (some a) = findLoop m t f n.pLeft := by
            simp [findLoop, hload, hd, htd, hlt]
          have hnr : t ∉ r.values := fun hmem => hor t hmem hlt
          obtain ⟨ih1, ih2⟩ := ihl n.pLeft f hl hOl hfl
          rw [heq]
          constructor
          · intro hmem
            have hml : t ∈ l.values := by
              simp only [Tree.values, List.mem_append, List.mem_cons] at hmem
              rcases hmem with h | h | h
              · exact h
              · exact absurd h htd
              · exact absurd h hnr
            obtain ⟨x, nx, h1, h2, h3⟩ := ih1 hml
            exact ⟨x, nx, h1, by simp [Tree.addrs, h2], h3⟩
          · intro hnot
            apply ih2
            intro hml
            exact hnot (by simp [Tree.values, hml])
        · have hgt : d < t := lt_of_le_of_ne (not_lt.mp hlt) (fun h => htd h.symm)
          have heq : findLoop m t (f + 1) (some a) = findLoop m t f n.pRight := by
            simp [findLoop, hload, hd, htd, hlt]
          have hnl : t ∉ l.values := fun hmem => hol t hmem hgt
          obtain ⟨ih1, ih2⟩ := ihr n.pRight f hrr hOr hfr
          rw [heq]
          constructor
          · intro hmem
            have hmr : t ∈ r.values := by
              simp only [Tree.values, List.mem_append, List.mem_cons] at hmem
              rcases hmem with h | h | h
              · exact absurd h hnl
              · exact absurd h htd
              · exact h
            obtain ⟨x, nx, h1, h2, h3⟩ := ih1 hmr
            exact ⟨x, nx, h1, by simp [Tree.addrs, h2], h3⟩
          · intro hnot
            apply ih2
            intro hmr
            exact hnot (by simp [Tree.values, hmr])

/-- Loop of `insert` with `keepUnique`: on a tree that holds `t` it ends at a
node holding `t` and changes nothing. -/
theorem insertLoop_existing (gas : Nat) (b : BST T) (t : T) :
    ∀ (s : Tree T) (p : Nat) (fuel : Nat),
      Repr b.mem (some p) s → s.Ordered → s.height ≤ fuel → t ∈ s.values →
      ∃ a n, insertLoop gas t true fuel b p = some (b, some a, false) ∧ a ∈ s.addrs ∧
          load b.mem a = some n ∧ n.data = t := by
  intro s
  induction s with
  | nil =>
    intro p fuel _ _ _ h
    simp [Tree.values] at h
  | node l a d red r ihl ihr =>
    intro p fuel hr ho hf hmem
    obtain ⟨hp, n, hload, hd, _, hl, hrr⟩ := hr
    obtain ⟨hol, hor, hOl, hOr⟩ := ho
    have hpa : p = a := by simpa using hp
    subst hpa
    cases fuel with
    | zero => simp [Tree.height] at hf
    | succ f =>
      have hfl : l.height ≤ f := by
        simp only [Tree.height] at hf; omega
      have hfr : r.height ≤ f := by
        simp only [Tree.height] at hf; omega
      by_cases htd : t = d
      · refine ⟨p, n, ?_, by simp [Tree.addrs], hload, by rw [hd, htd]⟩
        simp [insertLoop, hload, hd, htd]
      · by_cases hlt : t < d
        · have hnr : t ∉ r.values := fun hmem => hor t hmem hlt
          have hml : t ∈ l.values := by
            simp only [Tree.values, List.mem_append, List.mem_cons] at hmem
            rcases hmem with h | h | h
            · exact h
            · exact absurd h htd
            · exact absurd h hnr
          obtain ⟨la, hla⟩ := Tree.values_ne_nil_rootAddr hml
          have hpl : n.pLeft = some la := by rw [hl.root_eq, hla]
          rw [hpl] at hl
          obtain ⟨x, nx, h1, h2, h3⟩ := ihl la f hl hOl hfl hml
          refine ⟨x, nx, ?_, by simp [Tree.addrs, h2], h3⟩
          simp [insertLoop, hload, hd, htd, hlt, hpl, h1]
        · have hgt : d < t := lt_of_le_of_ne (not_lt.mp hlt) (fun h => htd h.symm)
          have hnl : t ∉ l.values := fun hmem => hol t hmem hgt
          have hmr : t ∈ r.values := by
            simp only [Tree.values, List.mem_append, List.mem_cons] at hmem
            rcases hmem with h | h | h
            · exact absurd h hnl
            · exact absurd h htd
            · exact h
          obtain ⟨ra, hra⟩ := Tree.values_ne_nil_rootAddr hmr
          have hpr : n.pRight = some ra := by rw [hrr.root_eq, hra]
          rw [hpr] at hrr
          obtain ⟨x, nx, h1, h2, h3⟩ := ihr ra f hrr hOr hfr hmr
          refine ⟨x, nx, ?_, by simp [Tree.addrs, h2], h3⟩
          simp [insertLoop, hload, hd, htd, hlt, hpr, h1]

/-- C8: on an acyclic tree that satisfies the ordering invariant, `find(t)`
returns an iterator to a node of the tree whose value equals `t` when some
node holds `t`, and `end()` otherwise. -/
theorem find_on_ordered_tree (b : BST T) (s : Tree T) (t : T) (fuel : Nat)
    (hrepr : Repr b.mem b.root s) (hord : s.Ordered) (hfuel : s.height ≤ fuel) :
    (t ∈ s.values → ∃ a n, b.find fuel t = some (some a) ∧ a ∈ s.addrs ∧
        load b.mem a = some n ∧ n.data = t) ∧
    (t ∉ s.values → b.find fuel t = some none) :=
  findLoop_spec b.mem t s b.root fuel hrepr hord hfuel

/-- C7: on a tree that satisfies the ordering invariant and holds a value equal
to `t`, `insert(t, true)` returns an iterator to a node of the tree whose value
equals `t` together with false, and the tree after the call is the tree before
it: the memory (data, colour and links of every node), `root` and `size()`. -/
theorem insert_unique_existing (b : BST T) (s : Tree T) (t : T) (fuel : Nat)
    (hrepr : Repr b.mem b.root s) (hord : s.Ordered) (hfuel : s.height ≤ fuel)
    (hmem : t ∈ s.values) :
    ∃ a n, b.insert fuel t true = some (b, some a, false) ∧ a ∈ s.addrs ∧
      load b.mem a = some n ∧ n.data = t := by
  obtain ⟨r, hr⟩ := Tree.values_ne_nil_rootAddr hmem
  have hroot : b.root = some r := by rw [hrepr.root_eq, hr]
  rw [hroot] at hrepr
  obtain ⟨a, n, h1, h2, h3⟩ := insertLoop_existing fuel b t s r fuel hrepr hord hfuel hmem
  exact ⟨a, n, by simp [BST.insert, hroot, h1], h2, h3⟩

end search

/-! ## Erasing a red leaf -/

section erase
variable {T : Type}

/-- C10, as amended: `erase` of a red node without children of a valid
red-black tree held in a `BST` returns and leaves a valid red-black tree held
in the `BST`, namely the old tree without that node. -/
theorem erase_red_leaf_keeps_valid (b : BST T) (s : Tree T) (a fuel : Nat)
    (hrb : b.HoldsRB s) (hleaf : s.redLeafAt a) (hfuel : s.height ≤ fuel) :
    ∃ b1 it next, b.erase fuel (some a) = some (b1, it, next) ∧
      b1.HoldsRB (s.dropLeaf a) := by
  obtain ⟨hrepr, hpar, hnd, hvalid⟩ := hrb
  have ha := Tree.redLeafAt_mem hleaf
  obtain ⟨n, hn, hnl, hnr, hred⟩ := redLeaf_node s _ hrepr hleaf
  -- the node is not the root, which is black
  have hroot : b.root ≠ some a := by
    intro e
    cases s with
    | nil => cases hleaf
    | node l x d red r =>
      obtain ⟨hx, nx, hnx, _, hc, _, _⟩ := hrepr
      rw [e] at hx
      cases hx
      rw [hn] at hnx
      cases hnx
      simp [Tree.validRB, Tree.isRedRoot, ← hc, hred] at hvalid
  obtain ⟨next, hnext⟩ := increment_defined_of_no_right hrepr hpar hnd ha hn hnr hfuel
  obtain ⟨n1, hn1, hcase⟩ := parent_in_tree s _ _ hrepr hpar a ha
  rw [hn] at hn1
  cases hn1
  rcases hcase with ⟨h1, _⟩ | ⟨q, qn, hp, _, hq, hchild⟩
  · exact absurd (by rw [hrepr.root_eq, h1]) hroot
  · have haq : ¬ a = q := by
      intro e
      subst e
      rw [hn] at hq
      cases hq
      rcases hchild with h | h
      · rw [hnl] at h; cases h
      · rw [hnr] at h; cases h
    -- the parent loses its link to the node
    obtain ⟨m1, hm1, hload1⟩ : ∃ m1, eraseLeaf b.mem a n = some m1 ∧
        ∀ x, load m1 x = if x = q then
          some (if qn.pLeft = some a then { qn with pLeft := none }
            else { qn with pRight := none }) else load b.mem x := by
      by_cases hleft : qn.pLeft = some a
      · obtain ⟨m1, hm1⟩ := write_of_load (fun k => { k with pLeft := none }) hq
        refine ⟨m1, by simp [eraseLeaf, hp, hq, hleft, setLeft, hm1], ?_⟩
        intro x
        rw [load_write hm1 x, hq, if_pos hleft]
        rfl
      · obtain ⟨m1, hm1⟩ := write_of_load (fun k => { k with pRight := none }) hq
        refine ⟨m1, by simp [eraseLeaf, hp, hq, hleft, setRight, hm1], ?_⟩
        intro x
        rw [load_write hm1 x, hq, if_neg hleft]
        rfl
    -- the node is deleted
    have hna : load m1 a = some n := by rw [hload1 a, if_neg haq, hn]
    obtain ⟨m2, hm2⟩ := dealloc_of_load hna
    have hload2 : ∀ x, load m2 x = if x = a then none else if x = q then
        some (if qn.pLeft = some a then { qn with pLeft := none }
          else { qn with pRight := none }) else load b.mem x := by
      intro x
      rw [load_dealloc hm2 x, hload1 x]
    obtain ⟨hr2, hp2⟩ := dropLeaf_repr hn hp hq hload2 s _ _ hrepr hpar hnd ha hroot
    refine ⟨{ mem := m2, root := b.root, numElements := decrSize b.numElements }, next, next,
      ?_, hr2, hp2, (Tree.dropLeaf_addrs_sublist a s).nodup hnd,
      Tree.validRB_dropLeaf hnd hleaf hvalid⟩
    simp [BST.erase, hnext, hroot, hn, hnl, hnr, hm1, hm2]

end erase

/-! ## Erasing and searching at concrete inputs -/

section samples

theorem sampleBST_repr : Repr sampleBST.mem sampleBST.root sampleTree :=
  ⟨rfl, _, rfl, rfl, rfl, ⟨rfl, _, rfl, rfl, rfl, rfl, rfl⟩, ⟨rfl, _, rfl, rfl, rfl, rfl, rfl⟩⟩

theorem sampleTree_ordered : sampleTree.Ordered := by
  simp [sampleTree, Tree.Ordered, Tree.values]

/-- Instance of C8 on the tree holding 2, 1, 3, for `find(3)`. -/
theorem find_on_ordered_tree_witness :
    ((3 : Int) ∈ sampleTree.values → ∃ a n, sampleBST.find 2 3 = some (some a) ∧
        a ∈ sampleTree.addrs ∧ load sampleBST.mem a = some n ∧ n.data = 3) ∧
    ((3 : Int) ∉ sampleTree.values → sampleBST.find 2 3 = some none) :=
  find_on_ordered_tree sampleBST sampleTree 3 2 sampleBST_repr sampleTree_ordered
    (by decide)

/-- Instance of C7 on the tree holding 2, 1, 3: inserting 3 again with
`keepUnique` changes nothing. -/
theorem insert_unique_existing_witness :
    ∃ a n, sampleBST.insert 2 3 true = some (sampleBST, some a, false) ∧
      a ∈ sampleTree.addrs ∧ load sampleBST.mem a = some n ∧ n.data = 3 :=
  insert_unique_existing sampleBST sampleTree 3 2 sampleBST_repr sampleTree_ordered
    (by decide) (by decide)

theorem sampleBST_holdsRB : sampleBST.HoldsRB sampleTree :=
  ⟨sampleBST_repr,
    ⟨⟨_, rfl, rfl⟩, ⟨⟨_, rfl, rfl⟩, trivial, trivial⟩, ⟨⟨_, rfl, rfl⟩, trivial, trivial⟩⟩,
    by decide, by decide⟩

theorem sampleBST4_holdsRB : sampleBST4.HoldsRB sampleTree4 :=
  ⟨⟨rfl, _, rfl, rfl, rfl,
      ⟨rfl, _, rfl, rfl, rfl, ⟨rfl, _, rfl, rfl, rfl, rfl, rfl⟩, rfl⟩,
      ⟨rfl, _, rfl, rfl, rfl, rfl, rfl⟩⟩,
    ⟨⟨_, rfl, rfl⟩,
      ⟨⟨_, rfl, rfl⟩, ⟨⟨_, rfl, rfl⟩, trivial, trivial⟩, trivial⟩,
      ⟨⟨_, rfl, rfl⟩, trivial, trivial⟩⟩,
    by decide, by decide⟩

theorem erasedBST4_repr : Repr erasedBST4.mem erasedBST4.root erasedTree4 :=
  ⟨rfl, _, rfl, rfl, rfl,
    ⟨rfl, _, rfl, rfl, rfl, ⟨rfl, _, rfl, rfl, rfl, rfl, rfl⟩, rfl⟩, rfl⟩

/-- C9: erasing the root of the tree built by inserting 2, 1, 3, a node with
two children, sets `root` to null and decrements `size()` to 2: the successor
holding 3 is not spliced in, and the nodes holding 1 and 3 stay in memory out
of reach.  Below the root the splice is done: erasing the node holding 2 from
the tree built by inserting 4, 2, 6, 1, 3 puts its successor (the node at
address 4, holding 3) in its place. -/
theorem erase_root_drops_tree :
    BST.insertAll 20 (BST.empty : BST Int) [2, 1, 3] = some sampleBST
    ∧ sampleBST.erase 20 sampleBST.root = some
        ({ mem := [none,
                   some { data := 1, pLeft := none, pRight := none, pParent := some 0,
                          isRed := true },
                   some { data := 3, pLeft := none, pRight := none, pParent := some 0,
                          isRed := true }],
           root := none,
           numElements := 2 }, some 2, none)
    ∧ (BST.insertAll 20 (BST.empty : BST Int) [4, 2, 6, 1, 3]).bind
        (fun b => (toTree b.mem 20 b.root).map (fun s => (b.find 20 2, s)))
      = some (some (some 1),
          Tree.node (Tree.node (Tree.node Tree.nil 3 1 true Tree.nil) 1 2 false
              (Tree.node Tree.nil 4 3 true Tree.nil)) 0 4 false
            (Tree.node Tree.nil 2 6 false Tree.nil))
    ∧ (BST.insertAll 20 (BST.empty : BST Int) [4, 2, 6, 1, 3]).bind
        (fun b => (b.erase 20 (some 1)).bind (fun r => toTree r.1.mem 20 r.1.root))
      = some (Tree.node (Tree.node (Tree.node Tree.nil 3 1 true Tree.nil) 4 3 true Tree.nil)
          0 4 false (Tree.node Tree.nil 2 6 false Tree.nil)) := by
  decide

/-- C10, as stated, fails on the valid red-black tree built by inserting
2, 1, 3, 0: erasing the black leaf holding 3 leaves the root with the black
node 1 on the left and nothing on the right, so the paths count two and one
black nodes and no valid red-black tree is held after the call. -/
theorem erase_black_leaf_breaks_red_black :
    BST.insertAll 20 (BST.empty : BST Int) [2, 1, 3, 0] = some sampleBST4
    ∧ sampleBST4.HoldsRB sampleTree4
    ∧ sampleBST4.find 3 3 = some (some 2)
    ∧ sampleBST4.erase 3 (some 2) = some (erasedBST4, none, none)
    ∧ Repr erasedBST4.mem erasedBST4.root erasedTree4
    ∧ erasedTree4.blackPaths = [2, 2, 2, 1]
    ∧ erasedTree4.validRB = false
    ∧ ¬ ∃ s, erasedBST4.HoldsRB s := by
  refine ⟨by decide, sampleBST4_holdsRB, by decide, by decide, erasedBST4_repr, by decide,
    by decide, ?_⟩
  rintro ⟨s, hrepr, _, _, hvalid⟩
  have hs : s = erasedTree4 := Repr.unique _ _ _ hrepr erasedBST4_repr
  rw [hs] at hvalid
  revert hvalid
  decide

/-- Instance of C10 as amended, on the tree holding 2, 1, 3: erasing the red
leaf holding 1 leaves a valid red-black tree. -/
theorem erase_red_leaf_keeps_valid_witness :
    ∃ b1 it next, sampleBST.erase 2 (some 1) = some (b1, it, next) ∧
      b1.HoldsRB (sampleTree.dropLeaf 1) :=
  erase_red_leaf_keeps_valid sampleBST sampleTree 1 2 sampleBST_holdsRB
    (Or.inr (Or.inl (Or.inl ⟨rfl, rfl, rfl, rfl⟩))) (by decide)

end samples

/-! ## The in-order successor found by `operator++` -/

section successor
variable {T : Type}

/-- A list without repetitions splits at an element in one way only. -/
theorem nodup_split_unique {a : Nat} :
    ∀ (p1 p2 q1 q2 : List Nat), (p1 ++ a :: q1).Nodup → p1 ++ a :: q1 = p2 ++ a :: q2 →
      p1 = p2 ∧ q1 = q2 := by
  intro p1
  induction p1 with
  | nil =>
    intro p2 q1 q2 hnd h
    cases p2 with
    | nil => exact ⟨rfl, by simpa using h⟩
    | cons c p2 =>
      simp only [List.nil_append, List.cons_append, List.cons.injEq] at h
      obtain ⟨_, h2⟩ := h
      rw [List.nil_append, List.nodup_cons] at hnd
      exact absurd (by rw [h2]; simp) hnd.1
  | cons c p1 ih =>
    intro p2 q1 q2 hnd h
    cases p2 with
    | nil =>
      simp only [List.nil_append, List.cons_append, List.cons.injEq] at h
      obtain ⟨h1, _⟩ := h
      rw [List.cons_append, List.nodup_cons] at hnd
      exact absurd (by rw [h1]; simp) hnd.1
    | cons c2 p2 =>
      simp only [List.cons_append, List.cons.injEq] at h
      obtain ⟨h1, h2⟩ := h
      rw [List.cons_append, List.nodup_cons] at hnd
      obtain ⟨e1, e2⟩ := ih p2 q1 q2 hnd.2 h2
      exact ⟨by rw [h1, e1], e2⟩

theorem Tree.addrs_eq_nil {s : Tree T} (h : s.addrs = []) : s = Tree.nil := by
  cases s with
  | nil => rfl
  | node l x d red r => simp [Tree.addrs] at h

/-- The descent `while (pNode->pLeft)` ends on the first node in in-order. -/
theorem leftmost_first {m : Mem T} :
    ∀ (s : Tree T) (x f : Nat), Repr m (some x) s → s.height ≤ f →
      ∃ y rest, leftmost m f x = some y ∧ s.addrs = y :: rest := by
  intro s
  induction s with
  | nil => intro x f h _; cases h
  | node l x1 d red r ihl _ =>
    intro x f hr hf
    obtain ⟨hx, n, hn, _, _, hl, _⟩ := hr
    cases hx
    simp only [Tree.height] at hf
    obtain ⟨g, hg⟩ : ∃ g, f = g + 1 := ⟨f - 1, by omega⟩
    subst hg
    cases hpl : n.pLeft with
    | none =>
      rw [hpl] at hl
      have hnil := hl.eq_nil
      subst hnil
      exact ⟨x1, r.addrs, by simp [leftmost, hn, hpl], by simp [Tree.addrs]⟩
    | some xl =>
      rw [hpl] at hl
      obtain ⟨y, rest, h1, h2⟩ := ihl xl g hl (by omega)
      exact ⟨y, rest ++ x1 :: r.addrs, by simp [leftmost, hn, hpl, h1],
        by simp [Tree.addrs, h2]⟩

/-- `operator++` inside a subtree.  `out` is what the climb from the root of
the subtree ends on; it is the node that follows the subtree in in-order.
Every node but the last moves to the next node of the subtree, and the last
node, when it is not the root of the subtree, moves to `out`. -/
theorem increment_in_subtree {m : Mem T} :
    ∀ (s : Tree T) (p par : Option Nat) (c : Nat) (out : Option Nat),
      Repr m p s → ParentsOk m par s → s.addrs.Nodup →
      (∀ x, s.rootAddr = some x → ∀ f, c ≤ f →
        ∃ top tn, climbRight m (f + 1) x = some top ∧ load m top = some tn ∧
          tn.pParent = out) →
      (∀ a b pre post, s.addrs = pre ++ a :: b :: post → ∀ f, c + s.height ≤ f →
        increment m f (some a) = some (some b)) ∧
      (∀ a pre, s.addrs = pre ++ [a] → s.rootAddr ≠ some a → ∀ f, c + s.height ≤ f →
        increment m f (some a) = some out) := by
  intro s
  induction s with
  | nil =>
    intro p par c out _ _ _ _
    constructor
    · intro a b pre post h; simp [Tree.addrs] at h
    · intro a pre h; simp [Tree.addrs] at h
  | node l x d red r ihl ihr =>
    intro p par c out hr hp hnd hroot
    obtain ⟨_, nx, hloadx, _, _, hl, hrr⟩ := hr
    obtain ⟨_, hpl, hpr⟩ := hp
    obtain ⟨hndl, hndr, hxl, hxr, hdisj⟩ := Tree.nodup_node hnd
    -- a root `y` of a child subtree has `x` as parent
    have hchild : ∀ (t : Tree T) (y : Nat), ParentsOk m (some x) t → t.rootAddr = some y →
        ∃ ny, load m y = some ny ∧ ny.pParent = some x := by
      intro t y ht hy
      cases t with
      | nil => cases hy
      | node tl y1 dt redt tr =>
        simp only [Tree.rootAddr, Option.some.injEq] at hy
        subst hy
        exact ht.1
    -- a node that is last in its subtree and the root of it has no right child
    have hlast : ∀ (t : Tree T) (q : Option Nat) (y : Nat) (ny : BNode T) (pre : List Nat),
        Repr m q t → t.addrs.Nodup → t.rootAddr = some y → t.addrs = pre ++ [y] →
        load m y = some ny → ny.pRight = none := by
      intro t q y ny pre ht hndt hy hsplit hny
      cases t with
      | nil => cases hy
      | node tl y1 dt redt tr =>
        simp only [Tree.rootAddr, Option.some.injEq] at hy
        subst hy
        obtain ⟨_, n1, hn1, _, _, _, htr⟩ := ht
        rw [hny] at hn1
        cases hn1
        have hs : tl.addrs ++ y1 :: tr.addrs = pre ++ y1 :: [] := hsplit
        obtain ⟨_, e⟩ := nodup_split_unique _ _ _ _ hndt hs
        rw [Tree.addrs_eq_nil e] at htr
        exact htr
    -- climbing from the root of the left subtree stops there
    have hexitl : ∀ y, l.rootAddr = some y → ∀ f, 0 ≤ f →
        ∃ top tn, climbRight m (f + 1) y = some top ∧ load m top = some tn ∧
          tn.pParent = some x := by
      intro y hy f _
      obtain ⟨ny, hny, hpy⟩ := hchild l y hpl hy
      have hne : ¬ nx.pRight = some y := by
        intro e
        have : r.rootAddr = some y := by rw [← hrr.root_eq, e]
        exact hdisj y (Tree.rootAddr_mem hy) (Tree.rootAddr_mem this)
      exact ⟨y, ny, by simp [climbRight, hny, hpy, hloadx, hne], hny, hpy⟩
    -- climbing from the root of the right subtree goes on from `x`
    have hexitr : ∀ y, r.rootAddr = some y → ∀ f, c + 1 ≤ f →
        ∃ top tn, climbRight m (f + 1) y = some top ∧ load m top = some tn ∧
          tn.pParent = out := by
      intro y hy f hf
      obtain ⟨ny, hny, hpy⟩ := hchild r y hpr hy
      have heq : nx.pRight = some y := by rw [hrr.root_eq, hy]
      obtain ⟨g, hg⟩ : ∃ g, f = g + 1 := ⟨f - 1, by omega⟩
      subst hg
      obtain ⟨top, tn, h1, h2, h3⟩ := hroot x rfl g (by omega)
      have hstep : climbRight m (g + 1 + 1) y = climbRight m (g + 1) x := by
        rw [climbRight]
        simp only [hny, hpy, hloadx, heq, if_true]
      exact ⟨top, tn, by rw [hstep, h1], h2, h3⟩
    obtain ⟨il1, il2⟩ := ihl _ _ 0 (some x) hl hpl hndl hexitl
    obtain ⟨ir1, ir2⟩ := ihr _ _ (c + 1) out hrr hpr hndr hexitr
    have hnd1 : (l.addrs ++ x :: r.addrs).Nodup := hnd
    constructor
    · intro a b pre post hsplit f hf
      simp only [Tree.height] at hf
      have hs : l.addrs ++ x :: r.addrs = pre ++ a :: b :: post := hsplit
      have hmem : a ∈ l.addrs ++ x :: r.addrs := by rw [hs]; simp
      simp only [List.mem_append, List.mem_cons] at hmem
      rcases hmem with ha | ha | ha
      · -- `a` is in the left subtree
        obtain ⟨p1, q1, hq⟩ := List.append_of_mem ha
        have hs1 : p1 ++ a :: (q1 ++ x :: r.addrs) = pre ++ a :: (b :: post) := by
          rw [← hs, hq]; simp
        have hnd2 : (p1 ++ a :: (q1 ++ x :: r.addrs)).Nodup := by
          have : p1 ++ a :: (q1 ++ x :: r.addrs) = l.addrs ++ x :: r.addrs := by
            rw [hq]; simp
          rw [this]; exact hnd1
        obtain ⟨_, e2⟩ := nodup_split_unique _ _ _ _ hnd2 hs1
        cases q1 with
        | nil =>
          simp only [List.nil_append, List.cons.injEq] at e2
          obtain ⟨ex, _⟩ := e2
          subst ex
          by_cases hra : l.rootAddr = some a
          · obtain ⟨na, hna, hpa⟩ := hchild l a hpl hra
            have hnr := hlast l _ a na p1 hl hndl hra hq hna
            have hleft : nx.pLeft = some a := by rw [hl.root_eq, hra]
            simp [increment, hna, hnr, hpa, hloadx, hleft]
          · exact il2 a p1 hq hra f (by omega)
        | cons b1 q1 =>
          simp only [List.cons_append, List.cons.injEq] at e2
          obtain ⟨eb, _⟩ := e2
          subst eb
          exact il1 a b1 p1 q1 hq f (by omega)
      · -- `a` is the root: go to the first node of the right subtree
        subst ha
        obtain ⟨_, e2⟩ := nodup_split_unique _ _ _ _ hnd1 hs
        cases hpr1 : nx.pRight with
        | none =>
          rw [hpr1] at hrr
          rw [hrr.eq_nil] at e2
          simp [Tree.addrs] at e2
        | some xr =>
          rw [hpr1] at hrr
          obtain ⟨y, rest, h1, h2⟩ := leftmost_first r xr f hrr (by omega)
          rw [h2] at e2
          simp only [List.cons.injEq] at e2
          obtain ⟨ey, _⟩ := e2
          subst ey
          simp [increment, hloadx, hpr1, h1]
      · -- `a` is in the right subtree
        obtain ⟨p1, q1, hq⟩ := List.append_of_mem ha
        have hs1 : (l.addrs ++ x :: p1) ++ a :: q1 = pre ++ a :: (b :: post) := by
          rw [← hs, hq]; simp
        have hnd2 : ((l.addrs ++ x :: p1) ++ a :: q1).Nodup := by
          have : (l.addrs ++ x :: p1) ++ a :: q1 = l.addrs ++ x :: r.addrs := by
            rw [hq]; simp
          rw [this]; exact hnd1
        obtain ⟨_, e2⟩ := nodup_split_unique _ _ _ _ hnd2 hs1
        subst e2
        exact ir1 a b p1 post hq f (by omega)
    · intro a pre hsplit hax f hf
      simp only [Tree.height] at hf
      have hs : l.addrs ++ x :: r.addrs = pre ++ a :: [] := hsplit
      have hmem : a ∈ l.addrs ++ x :: r.addrs := by rw [hs]; simp
      simp only [List.mem_append, List.mem_cons] at hmem
      rcases hmem with ha | ha | ha
      · obtain ⟨p1, q1, hq⟩ := List.append_of_mem ha
        have hs1 : p1 ++ a :: (q1 ++ x :: r.addrs) = pre ++ a :: [] := by
          rw [← hs, hq]; simp
        have hnd2 : (p1 ++ a :: (q1 ++ x :: r.addrs)).Nodup := by
          have : p1 ++ a :: (q1 ++ x :: r.addrs) = l.addrs ++ x :: r.addrs := by
            rw [hq]; simp
          rw [this]; exact hnd1
        obtain ⟨_, e2⟩ := nodup_split_unique _ _ _ _ hnd2 hs1
        simp at e2
      · exact absurd (by simp [Tree.rootAddr, ha]) hax
      · obtain ⟨p1, q1, hq⟩ := List.append_of_mem ha
        have hs1 : (l.addrs ++ x :: p1) ++ a :: q1 = pre ++ a :: [] := by
          rw [← hs, hq]; simp
        have hnd2 : ((l.addrs ++ x :: p1) ++ a :: q1).Nodup := by
          have : (l.addrs ++ x :: p1) ++ a :: q1 = l.addrs ++ x :: r.addrs := by
            rw [hq]; simp
          rw [this]; exact hnd1
        obtain ⟨_, e2⟩ := nodup_split_unique _ _ _ _ hnd2 hs1
        subst e2
        by_cases hra : r.rootAddr = some a
        · obtain ⟨na, hna, hpa⟩ := hchild r a hpr hra
          have hnr := hlast r _ a na p1 hrr hndr hra hq hna
          have hright : nx.pRight = some a := by rw [hrr.root_eq, hra]
          have hleft : ¬ nx.pLeft = some a := by
            intro e
            have : l.rootAddr = some a := by rw [← hl.root_eq, e]
            exact hdisj a (Tree.rootAddr_mem this) ha
          have hr1 : 1 ≤ r.height := by
            cases r with
            | nil => cases hra
            | node rl y dr redr rr => simp [Tree.height]
          obtain ⟨g, hg⟩ : ∃ g, f = g + 1 := ⟨f - 1, by omega⟩
          subst hg
          obtain ⟨top, tn, h1, h2, h3⟩ := hexitr a hra g (by omega)
          simp [increment, hna, hnr, hpa, hloadx, hleft, hright, h1, h2, h3]
        · exact ir2 a p1 hq hra f (by omega)

/-- C17: in a well-formed tree, prefix `++` on an iterator at a node `a` that
is not the last in in-order moves it to the in-order successor `b` of `a`. -/
theorem increment_moves_to_successor (m : Mem T) (root : Option Nat) (s : Tree T)
    (a b fuel : Nat) (pre post : List Nat)
    (hrepr : Repr m root s) (hpar : ParentsOk m none s) (hnd : s.addrs.Nodup)
    (hsplit : s.addrs = pre ++ a :: b :: post) (hfuel : s.height ≤ fuel) :
    increment m fuel (some a) = some (some b) := by
  refine (increment_in_subtree s root none 0 none hrepr hpar hnd ?_).1 a b pre post hsplit
    fuel (by omega)
  intro x hx f _
  obtain ⟨nx, hnx, hc⟩ := parent_in_tree s _ _ hrepr hpar x (Tree.rootAddr_mem hx)
  have hpx : nx.pParent = none := by
    cases s with
    | nil => cases hx
    | node l y d red r =>
      simp only [Tree.rootAddr, Option.some.injEq] at hx
      subst hx
      obtain ⟨⟨n2, h1, h2⟩, _, _⟩ := hpar
      rw [hnx] at h1
      cases h1
      exact h2
  exact ⟨x, nx, by simp [climbRight, hnx, hpx], hnx, hpx⟩

end successor

/-! ## The recolouring step of `balance` -/

section recolour
variable {T : Type}

/-- C18: `balance` on a node whose parent `p` is red, whose aunt `au` exists
and is red and whose grandparent `g` is black is a recolour-and-recurse step.
It goes on as `balance` from `g` in a memory `m3` that differs from the old
one only in colours: `p` and `au` are black and `g` is red, every `data`,
`pLeft`, `pRight` and `pParent` is as before.  When `g` has no parent, the
call ends there with `g` coloured black again. -/
theorem balance_recolour_step (m : Mem T) (self p g au fuel : Nat) (root : Option Nat)
    (me pn gn an : BNode T)
    (hme : load m self = some me) (hp : me.pParent = some p)
    (hpn : load m p = some pn) (hpred : pn.isRed = true) (hg : pn.pParent = some g)
    (hgn : load m g = some gn) (hgblack : gn.isRed = false)
    (hau : (if gn.pLeft = some p then gn.pRight else gn.pLeft) = some au)
    (han : load m au = some an) (hared : an.isRed = true) :
    ∃ m3, balance (fuel + 1) m self root = balance fuel m3 g root ∧
      (∀ x, load m3 x = (load m x).map (fun n =>
        if x = g then { n with isRed := true }
        else if x = p ∨ x = au then { n with isRed := false } else n)) ∧
      (gn.pParent = none → ∃ m4, balance (fuel + 2) m self root = some m4 ∧
        ∀ x, load m4 x = (load m x).map (fun n =>
          if x = p ∨ x = au then { n with isRed := false } else n)) := by
  have hgp : ¬ g = p := by
    intro e
    subst e
    rw [hgn] at hpn
    cases hpn
    rw [hgblack] at hpred
    cases hpred
  have hgau : ¬ g = au := by
    intro e
    subst e
    rw [hgn] at han
    cases han
    rw [hgblack] at hared
    cases hared
  obtain ⟨m1, hm1⟩ := write_of_load (fun n => { n with isRed := false }) hpn
  have hl1 := load_write hm1
  have han1 : ∃ an1, load m1 au = some an1 := by
    rw [hl1 au]
    by_cases e : au = p
    · simp [e, hpn]
    · simp [e, han]
  obtain ⟨an1, han1⟩ := han1
  obtain ⟨m2, hm2⟩ := write_of_load (fun n => { n with isRed := false }) han1
  have hl2 := load_write hm2
  have hgn2 : load m2 g = some gn := by
    rw [hl2 g, if_neg hgau, hl1 g, if_neg hgp, hgn]
  obtain ⟨m3, hm3⟩ := write_of_load (fun n => { n with isRed := true }) hgn2
  have hl3 := load_write hm3
  have hload3 : ∀ x, load m3 x = (load m x).map (fun n =>
      if x = g then { n with isRed := true }
      else if x = p ∨ x = au then { n with isRed := false } else n) := by
    intro x
    rw [hl3 x]
    by_cases exg : x = g
    · subst exg
      simp [hgn2, hgn]
    · rw [if_neg exg, hl2 x]
      by_cases exa : x = au
      · subst exa
        rw [if_pos rfl, han1, han]
        have h1 := hl1 x
        rw [han1] at h1
        by_cases exp : x = p
        · subst exp
          rw [hpn] at han
          cases han
          rw [if_pos rfl, hpn] at h1
          simp only [Option.map_some', Option.some.injEq] at h1
          subst h1
          simp [exg]
        · rw [if_neg exp, han] at h1
          cases h1
          simp [exg]
      · rw [if_neg exa, hl1 x]
        by_cases exp : x = p
        · subst exp
          simp [hpn, exg]
        · simp [exp, exa, exg]
  have hstep : ∀ f, balance (f + 1) m self root = balance f m3 g root := by
    intro f
    have h3 : isCase3 m (some p) (some au) (some g) = some true := by
      simp [isCase3, andThen, redOf, hpn, hpred, han, hared, hgn, hgblack]
    have hbind : (setRed m p false).bind (fun m1 =>
        (setRed m1 au false).bind (fun m2 => setRed m2 g true)) = some m3 := by
      simp [setRed, hm1, hm2, hm3]
    rw [balance]
    simp only [hme, hp, parentOf, otherChild, hpn, hg, hgn, Option.map_some', hau, redOf,
      hpred, h3, hbind]
  refine ⟨m3, hstep fuel, hload3, ?_⟩
  intro hroot
  have hg3 : load m3 g = some { gn with isRed := true } := by
    rw [hload3 g, hgn]
    simp
  obtain ⟨m4, hm4⟩ := write_of_load (fun n => { n with isRed := false }) hg3
  refine ⟨m4, ?_, ?_⟩
  · refine (hstep (fuel + 1)).trans ?_
    rw [balance]
    simp [hg3, hroot, parentOf, otherChild, setRed, hm4]
  · intro x
    rw [load_write hm4 x]
    by_cases exg : x = g
    · subst exg
      have hxp : ¬ (x = p ∨ x = au) := fun h => h.elim hgp hgau
      rw [if_pos rfl, hg3, hgn]
      simp only [Option.map_some', if_neg hxp]
      congr 1
      cases gn
      simp_all
    · rw [if_neg exg, hload3 x]
      simp [exg]

end recolour

/-! ## Clearing a subtree -/

section clearing
variable {T : Type}

/-- Every node of a tree that a pointer leads to is live. -/
theorem repr_live {m : Mem T} :
    ∀ (s : Tree T) (p : Option Nat), Repr m p s → ∀ x ∈ s.addrs, ∃ n, load m x = some n := by
  intro s
  induction s with
  | nil => intro p _ x hx; simp [Tree.addrs] at hx
  | node l a d red r ihl ihr =>
    intro p h x hx
    obtain ⟨_, n, hload, _, _, hl, hr⟩ := h
    simp only [Tree.addrs, List.mem_append, List.mem_cons] at hx
    rcases hx with hx | hx | hx
    · exact ihl _ hl x hx
    · exact ⟨n, hx ▸ hload⟩
    · exact ihr _ hr x hx

/-- A tree is still there when its nodes keep value, colour and children. -/
theorem repr_congr {m m1 : Mem T} :
    ∀ (s : Tree T) (p : Option Nat),
      (∀ x ∈ s.addrs, ∀ n, load m x = some n → ∃ n1, load m1 x = some n1 ∧
        n1.data = n.data ∧ n1.isRed = n.isRed ∧ n1.pLeft = n.pLeft ∧ n1.pRight = n.pRight) →
      Repr m p s → Repr m1 p s := by
  intro s
  induction s with
  | nil => intro p _ h; exact h
  | node l a d red r ihl ihr =>
    intro p hsame h
    obtain ⟨hp, n, hload, hd, hc, hl, hr⟩ := h
    obtain ⟨n1, h1, e1, e2, e3, e4⟩ := hsame a (by simp [Tree.addrs]) n hload
    refine ⟨hp, n1, h1, e1.trans hd, e2.trans hc, ?_, ?_⟩
    · rw [e3]
      exact ihl _ (fun x hx => hsame x (by simp [Tree.addrs, hx])) hl
    · rw [e4]
      exact ihr _ (fun x hx => hsame x (by simp [Tree.addrs, hx])) hr

/-- Parent pointers stay consistent when every node keeps its `pParent`. -/
theorem parentsOk_congr {m m1 : Mem T} :
    ∀ (s : Tree T) (par : Option Nat),
      (∀ x ∈ s.addrs, ∀ n, load m x = some n →
        ∃ n1, load m1 x = some n1 ∧ n1.pParent = n.pParent) →
      ParentsOk m par s → ParentsOk m1 par s := by
  intro s
  induction s with
  | nil => intro p _ h; exact h
  | node l a d red r ihl ihr =>
    intro par hsame h
    obtain ⟨⟨n, hload, hpar⟩, hl, hr⟩ := h
    obtain ⟨n1, h1, e1⟩ := hsame a (by simp [Tree.addrs]) n hload
    refine ⟨⟨n1, h1, e1.trans hpar⟩, ?_, ?_⟩
    · exact ihl _ (fun x hx => hsame x (by simp [Tree.addrs, hx])) hl
    · exact ihr _ (fun x hx => hsame x (by simp [Tree.addrs, hx])) hr

/-- The first node of a chain of parents is live. -/
theorem chain_live {m : Mem T} {a : Nat} {anc : List Nat} (h : Chain m a anc) :
    ∃ n, load m a = some n := by
  cases anc with
  | nil => obtain ⟨n, hn, _⟩ := h; exact ⟨n, hn⟩
  | cons q rest => obtain ⟨n, hn, _⟩ := h; exact ⟨n, hn⟩

/-- A chain of parents is still there when its nodes keep their `pParent`. -/
theorem chain_congr {m m1 : Mem T} :
    ∀ (anc : List Nat) (a : Nat),
      (∀ x ∈ a :: anc, ∀ n, load m x = some n →
        ∃ n1, load m1 x = some n1 ∧ n1.pParent = n.pParent) →
      Chain m a anc → Chain m1 a anc := by
  intro anc
  induction anc with
  | nil =>
    intro a hsame h
    obtain ⟨n, hn, hp⟩ := h
    obtain ⟨n1, h1, e1⟩ := hsame a (by simp) n hn
    exact ⟨n1, h1, e1.trans hp⟩
  | cons q rest ih =>
    intro a hsame h
    obtain ⟨n, hn, hp, hrest⟩ := h
    obtain ⟨n1, h1, e1⟩ := hsame a (by simp) n hn
    refine ⟨n1, h1, e1.trans hp, ih q (fun x hx => hsame x ?_) hrest⟩
    exact List.mem_cons_of_mem _ hx

/-- The loop of `++` that climbs while the node is a right child ends at a
live node when the parents form a chain that ends at a node without parent. -/
theorem climbRight_of_chain {m : Mem T} :
    ∀ (anc : List Nat) (a f : Nat), Chain m a anc → anc.length + 1 ≤ f →
      ∃ top tn, climbRight m f a = some top ∧ load m top = some tn := by
  intro anc
  induction anc with
  | nil =>
    intro a f h hf
    obtain ⟨n, hn, hp⟩ := h
    obtain ⟨g, rfl⟩ : ∃ g, f = g + 1 := ⟨f - 1, by simp at hf; omega⟩
    exact ⟨a, n, by simp [climbRight, hn, hp], hn⟩
  | cons q rest ih =>
    intro a f h hf
    obtain ⟨n, hn, hp, hrest⟩ := h
    obtain ⟨g, rfl⟩ : ∃ g, f = g + 1 := ⟨f - 1, by simp at hf; omega⟩
    obtain ⟨qn, hqn⟩ := chain_live hrest
    by_cases hside : qn.pRight = some a
    · obtain ⟨top, tn, h1, h2⟩ := ih q g hrest (by simp at hf; omega)
      exact ⟨top, tn, by simp [climbRight, hn, hp, hqn, hside, h1], h2⟩
    · exact ⟨a, n, by simp [climbRight, hn, hp, hqn, hside], hn⟩

/-- Prefix `++` returns at a node without right child whose parents form a
chain. -/
theorem increment_of_chain {m : Mem T} {a : Nat} {n : BNode T} {anc : List Nat} {f : Nat}
    (hn : load m a = some n) (hr : n.pRight = none) (hch : Chain m a anc)
    (hf : anc.length + 1 ≤ f) : ∃ next, increment m f (some a) = some next := by
  obtain ⟨top, tn, h1, h2⟩ := climbRight_of_chain anc a f hch hf
  cases hp : n.pParent with
  | none => exact ⟨some a, by simp [increment, hn, hr, hp]⟩
  | some q =>
    cases anc with
    | nil =>
      obtain ⟨n1, hn1, hp1⟩ := hch
      rw [hn] at hn1
      cases hn1
      rw [hp] at hp1
      cases hp1
    | cons q1 rest =>
      obtain ⟨n1, hn1, hp1, hrest⟩ := hch
      rw [hn] at hn1
      cases hn1
      rw [hp] at hp1
      cases hp1
      obtain ⟨qn, hqn⟩ := chain_live hrest
      by_cases hleft : qn.pLeft = some a
      · exact ⟨some q, by simp [increment, hn, hr, hp, hqn, hleft]⟩
      · by_cases hright : qn.pRight = some a
        · exact ⟨tn.pParent, by simp [increment, hn, hr, hp, hqn, hleft, hright, h1, h2]⟩
        · exact ⟨some a, by simp [increment, hn, hr, hp, hqn, hleft, hright]⟩

/-- Leaf case of `erase`, below the root: the node is deleted, its parent `q`
loses the link to it, `numElements` goes down by one, nothing else changes. -/
theorem erase_leaf_spec (gas : Nat) (b : BST T) (a q : Nat) (n qn : BNode T)
    (anc : List Nat) (hn : load b.mem a = some n) (hl : n.pLeft = none)
    (hr : n.pRight = none) (hp : n.pParent = some q) (hq : load b.mem q = some qn)
    (hch : Chain b.mem q anc) (haq : a ≠ q) (hroot : b.root ≠ some a)
    (hgas : anc.length + 2 ≤ gas) :
    ∃ b1, (b.erase gas (some a)).map (fun r => r.1) = some b1 ∧ b1.root = b.root ∧
      b1.numElements = decrSize b.numElements ∧
      ∀ x, load b1.mem x =
        if x = a then none else if x = q then some (unlink qn a) else load b.mem x := by
  have hcha : Chain b.mem a (q :: anc) := ⟨n, hn, hp, hch⟩
  obtain ⟨next, hnext⟩ := increment_of_chain hn hr hcha (by simpa using hgas)
  obtain ⟨m1, hm1, hload1⟩ : ∃ m1, eraseLeaf b.mem a n = some m1 ∧
      ∀ x, load m1 x = if x = q then some (unlink qn a) else load b.mem x := by
    by_cases hside : qn.pLeft = some a
    · obtain ⟨m1, hw⟩ := write_of_load (fun k => { k with pLeft := none }) hq
      refine ⟨m1, by simp [eraseLeaf, hp, hq, hside, setLeft, hw], fun x => ?_⟩
      rw [load_write hw x, hq]
      simp [unlink, hside]
    · obtain ⟨m1, hw⟩ := write_of_load (fun k => { k with pRight := none }) hq
      refine ⟨m1, by simp [eraseLeaf, hp, hq, hside, setRight, hw], fun x => ?_⟩
      rw [load_write hw x, hq]
      simp [unlink, hside]
  obtain ⟨m2, hm2⟩ := dealloc_of_load (m := m1) (a := a) (n := n)
    (by rw [hload1, if_neg haq]; exact hn)
  refine ⟨{ mem := m2, root := b.root, numElements := decrSize b.numElements }, ?_, rfl,
    rfl, fun x => ?_⟩
  · simp [BST.erase, hnext, hroot, hn, hl, hr, hm1, hm2]
  · show load m2 x = _
    rw [load_dealloc hm2 x, hload1 x]

/-- The guarded recursive call of `clear` is the call on the child pointer. -/
theorem clearKid_eq (gas f : Nat) (b : BST T) (a : Nat) (n : BNode T) (right : Bool)
    (hn : load b.mem a = some n) :
    clearKid (clearNode gas f) b a right
      = clearNode gas f b (if right then n.pRight else n.pLeft) := by
  unfold clearKid
  rw [hn]
  simp only []
  generalize (if right then n.pRight else n.pLeft) = k
  cases k with
  | none => cases f <;> simp [clearNode]
  | some c => rfl

/-- Decrementing a 64-bit size that is at least `k` for `k` times. -/
theorem decrSize_iterate (k : Nat) :
    ∀ n, k ≤ n → n < 2 ^ 64 → Nat.iterate decrSize k n = n - k := by
  induction k with
  | zero => intro n _ _; rfl
  | succ k ih =>
    intro n hk hn
    rw [Function.iterate_succ_apply, ih (decrSize n)]
    · unfold decrSize
      omega
    · unfold decrSize
      omega
    · unfold decrSize
      omega

/-- `clear` on the subtree `d` whose root has the live parent `q`, in a tree
whose chain of parents above `q` is intact: it returns, every node of `d` is
deleted, `q` loses its link to `d`, `numElements` goes down by the number of
nodes of `d`, and no other node changes. -/
theorem clearNode_spec (gas : Nat) (d : Tree T) :
    ∀ (fuel : Nat) (b : BST T) (dp : Option Nat) (q : Nat) (qn : BNode T) (anc : List Nat),
      Repr b.mem dp d → ParentsOk b.mem (some q) d → d.addrs.Nodup →
      load b.mem q = some qn → Chain b.mem q anc → (∀ y ∈ q :: anc, y ∉ d.addrs) →
      (∀ y ∈ d.addrs, b.root ≠ some y) → d.height ≤ fuel →
      anc.length + d.height + 1 ≤ gas →
      ∃ b1, clearNode gas fuel b dp = some b1 ∧ b1.root = b.root ∧
        b1.numElements = Nat.iterate decrSize d.addrs.length b.numElements ∧
        (∀ x ∈ d.addrs, load b1.mem x = none) ∧
        (∀ x, x ∉ d.addrs → x ≠ q → load b1.mem x = load b.mem x) ∧
        load b1.mem q = some (match dp with | none => qn | some a => unlink qn a) := by
  induction d with
  | nil =>
    intro fuel b dp q qn anc hrepr _ _ hq _ _ _ _ _
    have hdp : dp = none := hrepr
    subst hdp
    refine ⟨b, by cases fuel <;> simp [clearNode], rfl, rfl, ?_, fun _ _ _ => rfl, hq⟩
    intro x hx
    simp [Tree.addrs] at hx
  | node dl a dd dred dr ihl ihr =>
    intro fuel b dp q qn anc hrepr hpar hnd hq hch hout hroot hfuel hgas
    obtain ⟨hdp, n, hn, -, -, hl, hr⟩ := hrepr
    obtain ⟨⟨n0, hn0, hpn⟩, hparl, hparr⟩ := hpar
    rw [hn] at hn0
    cases hn0
    subst hdp
    obtain ⟨hndl, hndr, hal, har, hdisj⟩ := Tree.nodup_node hnd
    simp only [Tree.height] at hfuel hgas
    obtain ⟨f, rfl⟩ : ∃ f, fuel = f + 1 := ⟨fuel - 1, by omega⟩
    have hmem : ∀ x, x ∈ (Tree.node dl a dd dred dr).addrs ↔
        x ∈ dl.addrs ∨ x = a ∨ x ∈ dr.addrs := by
      intro x
      simp [Tree.addrs]
    have haq : a ≠ q := fun e => hout q (by simp) ((hmem q).2 (Or.inr (Or.inl e.symm)))
    have hcha : Chain b.mem a (q :: anc) := ⟨n, hn, hpn, hch⟩
    have houtl : ∀ y ∈ q :: anc, y ∉ dl.addrs ∧ y ≠ a ∧ y ∉ dr.addrs := by
      intro y hy
      have := hout y hy
      rw [hmem] at this
      exact ⟨fun h => this (Or.inl h), fun h => this (Or.inr (Or.inl h)),
        fun h => this (Or.inr (Or.inr h))⟩
    -- the left subtree
    obtain ⟨b1, hc1, hroot1, hnum1, hdel1, hframe1, hown1⟩ :=
      ihl f b n.pLeft a n (q :: anc) hl hparl hndl hn hcha
        (by
          intro y hy
          rcases List.mem_cons.1 hy with e | hy1
          · rw [e]; exact hal
          · exact (houtl y hy1).1)
        (fun y hy => hroot y ((hmem y).2 (Or.inl hy))) (by omega)
        (by simp only [List.length_cons]; omega)
    obtain ⟨n1, hn1, e1l, e1r, e1p⟩ : ∃ n1, load b1.mem a = some n1 ∧ n1.pLeft = none ∧
        n1.pRight = n.pRight ∧ n1.pParent = some q := by
      cases hpl : n.pLeft with
      | none =>
        rw [hpl] at hown1
        exact ⟨n, hown1, hpl, rfl, hpn⟩
      | some c =>
        rw [hpl] at hown1
        exact ⟨_, hown1, by simp [unlink, hpl], by simp [unlink, hpl],
          by simp [unlink, hpl, hpn]⟩
    have hch1 : Chain b1.mem q anc := by
      refine chain_congr anc q (fun x hx k hk => ⟨k, ?_, rfl⟩) hch
      rw [hframe1 x (houtl x hx).1 (houtl x hx).2.1]
      exact hk
    -- the right subtree
    obtain ⟨b2, hc2, hroot2, hnum2, hdel2, hframe2, hown2⟩ :=
      ihr f b1 n1.pRight a n1 (q :: anc)
        (by
          rw [e1r]
          exact repr_frame dr _ (fun x hx => hframe1 x (fun h => hdisj x h hx)
            (fun e => har (e ▸ hx))) hr)
        (parentsOk_frame dr _ (fun x hx => hframe1 x (fun h => hdisj x h hx)
            (fun e => har (e ▸ hx))) hparr)
        hndr hn1 ⟨n1, hn1, e1p, hch1⟩
        (by
          intro y hy
          rcases List.mem_cons.1 hy with e | hy1
          · rw [e]; exact har
          · exact (houtl y hy1).2.2)
        (fun y hy => by rw [hroot1]; exact hroot y ((hmem y).2 (Or.inr (Or.inr hy))))
        (by omega) (by simp only [List.length_cons]; omega)
    obtain ⟨n2, hn2, e2l, e2r, e2p⟩ : ∃ n2, load b2.mem a = some n2 ∧ n2.pLeft = none ∧
        n2.pRight = none ∧ n2.pParent = some q := by
      cases hpr : n1.pRight with
      | none =>
        rw [hpr] at hown2
        exact ⟨n1, hown2, e1l, hpr, e1p⟩
      | some c =>
        rw [hpr] at hown2
        exact ⟨_, hown2, by simp [unlink, e1l], by simp [unlink, e1l],
          by simp [unlink, e1l, e1p]⟩
    have hq2 : load b2.mem q = some qn := by
      rw [hframe2 q (houtl q (by simp)).2.2 (fun e => haq e.symm),
        hframe1 q (houtl q (by simp)).1 (fun e => haq e.symm)]
      exact hq
    have hch2 : Chain b2.mem q anc := by
      refine chain_congr anc q (fun x hx k hk => ⟨k, ?_, rfl⟩) hch1
      rw [hframe2 x (houtl x hx).2.2 (houtl x hx).2.1]
      exact hk
    -- the node itself
    obtain ⟨b3, hc3, hroot3, hnum3, hload3⟩ :=
      erase_leaf_spec gas b2 a q n2 qn anc hn2 e2l e2r e2p hq2 hch2 haq
        (by rw [hroot2, hroot1]; exact hroot a ((hmem a).2 (Or.inr (Or.inl rfl))))
        (by omega)
    refine ⟨b3, ?_, by rw [hroot3, hroot2, hroot1], ?_, ?_, ?_, ?_⟩
    · have h1 := clearKid_eq gas f b a n false hn
      have h2 := clearKid_eq gas f b1 a n1 true hn1
      simp only [if_true, Bool.false_eq_true, if_false] at h1 h2
      simp only [clearNode, h1, hc1, h2, hc2, hc3]
    · rw [hnum3, hnum2, hnum1]
      have hlen : (Tree.node dl a dd dred dr).addrs.length
          = (dr.addrs.length + 1) + dl.addrs.length := by
        simp [Tree.addrs]
        omega
      rw [hlen, Function.iterate_add_apply, Function.iterate_succ_apply']
    · intro x hx
      rw [hload3 x]
      by_cases hxa : x = a
      · simp [hxa]
      · have hxq : x ≠ q := fun e => hout q (by simp) (e ▸ hx)
        rw [if_neg hxa, if_neg hxq]
        rcases (hmem x).1 hx with h | h | h
        · rw [hframe2 x (fun h2 => hdisj x h h2) hxa]
          exact hdel1 x h
        · exact absurd h hxa
        · exact hdel2 x h
    · intro x hx hxq
      rw [hmem] at hx
      have hxa : x ≠ a := fun e => hx (Or.inr (Or.inl e))
      rw [hload3 x, if_neg hxa, if_neg hxq,
        hframe2 x (fun h => hx (Or.inr (Or.inr h))) hxa,
        hframe1 x (fun h => hx (Or.inl h)) hxa]
    · rw [hload3 q, if_neg (fun e => haq (Eq.symm e)), if_pos rfl]

/-- `clear()` on a well-formed tree returns and leaves `root` null and
`numElements` 0; every node of the tree is deleted and no other node changes. -/
theorem clear_spec (fuel : Nat) (b : BST T) (s : Tree T)
    (hrepr : Repr b.mem b.root s) (hpar : ParentsOk b.mem none s) (hnd : s.addrs.Nodup)
    (hnum : b.numElements = s.addrs.length) (h64 : b.numElements < 2 ^ 64)
    (hfuel : s.height ≤ fuel) :
    ∃ b1, b.clear fuel = some b1 ∧ b1.root = none ∧ b1.numElements = 0 ∧
      (∀ x ∈ s.addrs, load b1.mem x = none) ∧
      (∀ x, x ∉ s.addrs → load b1.mem x = load b.mem x) := by
  cases s with
  | nil =>
    have hroot : b.root = none := hrepr
    refine ⟨b, by simp [BST.clear, hroot], hroot, by simpa [Tree.addrs] using hnum, ?_,
      fun _ _ => rfl⟩
    intro x hx
    simp [Tree.addrs] at hx
  | node dl a dd dred dr =>
    obtain ⟨hroot, n, hn, -, -, hl, hr⟩ := hrepr
    obtain ⟨⟨n0, hn0, hpn⟩, hparl, hparr⟩ := hpar
    rw [hn] at hn0
    cases hn0
    obtain ⟨hndl, hndr, hal, har, hdisj⟩ := Tree.nodup_node hnd
    simp only [Tree.height] at hfuel
    obtain ⟨f, rfl⟩ : ∃ f, fuel = f + 1 := ⟨fuel - 1, by omega⟩
    have hmem : ∀ x, x ∈ (Tree.node dl a dd dred dr).addrs ↔
        x ∈ dl.addrs ∨ x = a ∨ x ∈ dr.addrs := by
      intro x
      simp [Tree.addrs]
    -- the left subtree
    obtain ⟨b1, hc1, hroot1, hnum1, hdel1, hframe1, hown1⟩ :=
      clearNode_spec (f + 1) dl f b n.pLeft a n [] hl hparl hndl hn ⟨n, hn, hpn⟩
        (by
          intro y hy
          rw [List.mem_singleton.1 hy]
          exact hal)
        (fun y hy => by rw [hroot]; exact fun e => hal (Option.some.inj e ▸ hy))
        (by omega) (by simp only [List.length_nil]; omega)
    obtain ⟨n1, hn1, e1l, e1r, e1p⟩ : ∃ n1, load b1.mem a = some n1 ∧ n1.pLeft = none ∧
        n1.pRight = n.pRight ∧ n1.pParent = none := by
      cases hpl : n.pLeft with
      | none =>
        rw [hpl] at hown1
        exact ⟨n, hown1, hpl, rfl, hpn⟩
      | some c =>
        rw [hpl] at hown1
        exact ⟨_, hown1, by simp [unlink, hpl], by simp [unlink, hpl],
          by simp [unlink, hpl, hpn]⟩
    -- the right subtree
    obtain ⟨b2, hc2, hroot2, hnum2, hdel2, hframe2, hown2⟩ :=
      clearNode_spec (f + 1) dr f b1 n1.pRight a n1 []
        (by
          rw [e1r]
          exact repr_frame dr _ (fun x hx => hframe1 x (fun h => hdisj x h hx)
            (fun e => har (e ▸ hx))) hr)
        (parentsOk_frame dr _ (fun x hx => hframe1 x (fun h => hdisj x h hx)
            (fun e => har (e ▸ hx))) hparr)
        hndr hn1 ⟨n1, hn1, e1p⟩
        (by
          intro y hy
          rw [List.mem_singleton.1 hy]
          exact har)
        (fun y hy => by
          rw [hroot1, hroot]
          exact fun e => har (Option.some.inj e ▸ hy))
        (by omega) (by simp only [List.length_nil]; omega)
    obtain ⟨n2, hn2, e2r, e2p⟩ : ∃ n2, load b2.mem a = some n2 ∧
        n2.pRight = none ∧ n2.pParent = none := by
      cases hpr : n1.pRight with
      | none =>
        rw [hpr] at hown2
        exact ⟨n1, hown2, hpr, e1p⟩
      | some c =>
        rw [hpr] at hown2
        exact ⟨_, hown2, by simp [unlink, e1l], by simp [unlink, e1l, e1p]⟩
    -- the root itself
    obtain ⟨m3, hm3⟩ := dealloc_of_load hn2
    have hroot2a : b2.root = some a := by rw [hroot2, hroot1, hroot]
    have hlen : (Tree.node dl a dd dred dr).addrs.length
        = (dr.addrs.length + 1) + dl.addrs.length := by
      simp [Tree.addrs]
      omega
    refine ⟨{ mem := m3, root := none, numElements := decrSize b2.numElements }, ?_, rfl,
      ?_, ?_, ?_⟩
    · have h1 := clearKid_eq (f + 1) f b a n false hn
      have h2 := clearKid_eq (f + 1) f b1 a n1 true hn1
      simp only [if_true, Bool.false_eq_true, if_false] at h1 h2
      simp [BST.clear, hroot, clearNode, h1, hc1, h2, hc2, BST.erase, increment, hn2, e2r,
        e2p, hroot2a, hm3]
    · show decrSize b2.numElements = 0
      rw [hnum2, hnum1, ← Function.iterate_succ_apply' decrSize,
        ← Function.iterate_add_apply, ← hlen, decrSize_iterate _ _ (le_of_eq hnum.symm) h64,
        hnum]
      exact Nat.sub_self _
    · intro x hx
      show load m3 x = none
      rw [load_dealloc hm3 x]
      by_cases hxa : x = a
      · simp [hxa]
      · rw [if_neg hxa]
        rcases (hmem x).1 hx with h | h | h
        · rw [hframe2 x (fun h2 => hdisj x h h2) hxa]
          exact hdel1 x h
        · exact absurd h hxa
        · exact hdel2 x h
    · intro x hx
      rw [hmem] at hx
      have hxa : x ≠ a := fun e => hx (Or.inr (Or.inl e))
      show load m3 x = _
      rw [load_dealloc hm3 x, if_neg hxa,
        hframe2 x (fun h => hx (Or.inr (Or.inr h))) hxa,
        hframe1 x (fun h => hx (Or.inl h)) hxa]

end clearing

/-! ## Copy assignment -/

section copying
variable {T : Type}

/-- Reading after `new`. -/
theorem load_alloc (m : Mem T) (n : BNode T) (x : Nat) :
    load (alloc m n).1 x = if x = m.length then some n else load m x := by
  unfold alloc load
  by_cases h1 : x < m.length
  · have h2 : x ≠ m.length := by omega
    simp [List.getElem?_append_left h1, h2]
  · by_cases h2 : x = m.length
    · subst h2
      simp
    · have h3 : m[x]? = none := List.getElem?_eq_none (by omega)
      have h4 : (m ++ [some n])[x]? = none := List.getElem?_eq_none (by simp; omega)
      simp [h2, h3, h4]

/-- The place holds the pointer the invariant names. -/
theorem readSlot_ready {gas : Nat} {b : BST T} {slot : Slot} {dp par : Option Nat}
    {d : Tree T} (h : SlotReady gas b slot dp par d) : readSlot b slot = some dp := by
  cases slot with
  | root => simp [readSlot, h.1]
  | left q =>
    obtain ⟨_, qn, anc, hq, hl, _⟩ := h
    simp [readSlot, hq, hl]
  | right q =>
    obtain ⟨_, qn, anc, hq, hl, _⟩ := h
    simp [readSlot, hq, hl]

/-- The place holds the same pointer when its owner is untouched. -/
theorem readSlot_congr {b b1 : BST T} (slot : Slot)
    (hroot : slot = Slot.root → b1.root = b.root)
    (hown : ∀ q, slot.owner = some q → load b1.mem q = load b.mem q) :
    readSlot b1 slot = readSlot b slot := by
  cases slot with
  | root => simp [readSlot, hroot rfl]
  | left q => simp [readSlot, hown q rfl]
  | right q => simp [readSlot, hown q rfl]

theorem derefSlot_eq {b : BST T} {slot : Slot} {da : Nat}
    (h : readSlot b slot = some (some da)) : derefSlot b slot = some da := by
  simp [derefSlot, h]

/-- Storing a pointer in a place whose owner is live. -/
theorem writeSlot_spec (b : BST T) (slot : Slot) (v : Option Nat)
    (hlive : ∀ q, slot.owner = some q → ∃ qn, load b.mem q = some qn) :
    ∃ b1, writeSlot b slot v = some b1 ∧ readSlot b1 slot = some v ∧
      (∀ x, some x ≠ slot.owner → load b1.mem x = load b.mem x) ∧
      (∀ q qn, slot.owner = some q → load b.mem q = some qn →
        load b1.mem q = some (slot.setLink v qn)) ∧
      (slot ≠ Slot.root → b1.root = b.root) ∧ (slot = Slot.root → b1.root = v) := by
  cases slot with
  | root =>
    refine ⟨{ b with root := v }, rfl, rfl, fun _ _ => rfl, ?_, fun h => absurd rfl h,
      fun _ => rfl⟩
    intro q qn hq
    cases hq
  | left q =>
    obtain ⟨qn, hq⟩ := hlive q rfl
    obtain ⟨m1, hw⟩ := write_of_load (fun k => { k with pLeft := v }) hq
    refine ⟨{ b with mem := m1 }, by simp [writeSlot, setLeft, hw], ?_, ?_, ?_,
      fun _ => rfl, fun h => by cases h⟩
    · simp [readSlot, load_write hw, hq]
    · intro x hx
      have hxq : x ≠ q := fun e => hx (by rw [e]; rfl)
      show load m1 x = _
      rw [load_write hw x, if_neg hxq]
    · intro q1 qn1 hq1 hload
      cases hq1
      show load m1 q = _
      rw [load_write hw q, if_pos rfl, hload]
      rfl
  | right q =>
    obtain ⟨qn, hq⟩ := hlive q rfl
    obtain ⟨m1, hw⟩ := write_of_load (fun k => { k with pRight := v }) hq
    refine ⟨{ b with mem := m1 }, by simp [writeSlot, setRight, hw], ?_, ?_, ?_,
      fun _ => rfl, fun h => by cases h⟩
    · simp [readSlot, load_write hw, hq]
    · intro x hx
      have hxq : x ≠ q := fun e => hx (by rw [e]; rfl)
      show load m1 x = _
      rw [load_write hw x, if_neg hxq]
    · intro q1 qn1 hq1 hload
      cases hq1
      show load m1 q = _
      rw [load_write hw q, if_pos rfl, hload]
      rfl

/-- Assigning through the pointer a place holds, when the node it points to
does not own the place. -/
theorem writeAt_spec (b : BST T) (slot : Slot) (da : Nat) (dn : BNode T)
    (f : BNode T → BNode T) (hread : readSlot b slot = some (some da))
    (hload : load b.mem da = some dn) (hown : some da ≠ slot.owner) :
    ∃ b1, writeAt b slot f = some b1 ∧ b1.root = b.root ∧
      (∀ x, load b1.mem x = if x = da then some (f dn) else load b.mem x) ∧
      readSlot b1 slot = some (some da) := by
  obtain ⟨m1, hw⟩ := write_of_load f hload
  have hl : ∀ x, load m1 x = if x = da then some (f dn) else load b.mem x := by
    intro x
    rw [load_write hw x, hload]
    rfl
  refine ⟨{ b with mem := m1 }, by simp [writeAt, derefSlot_eq hread, hw], rfl, hl, ?_⟩
  rw [← hread]
  refine readSlot_congr slot (fun _ => rfl) (fun q hq => ?_)
  show load m1 q = _
  rw [hl q, if_neg (fun e => hown (by rw [← e, hq]))]

theorem Slot.owner_none {slot : Slot} (h : slot.owner = none) : slot = Slot.root := by
  cases slot with
  | root => rfl
  | left q => cases h
  | right q => cases h

/-- What the invariant of a place says about its owner. -/
theorem slotReady_owner {gas : Nat} {b : BST T} {slot : Slot} {dp par : Option Nat}
    {d : Tree T} (h : SlotReady gas b slot dp par d) (q : Nat) (hq : slot.owner = some q) :
    par = some q ∧ ∃ qn anc, load b.mem q = some qn ∧ Chain b.mem q anc ∧
      (∀ y ∈ q :: anc, y ∉ d.addrs) ∧ anc.length + d.height + 2 ≤ gas := by
  cases slot with
  | root => cases hq
  | left q1 =>
    cases hq
    obtain ⟨h1, qn, anc, h2, -, h3, h4, h5⟩ := h
    exact ⟨h1, qn, anc, h2, h3, h4, h5⟩
  | right q1 =>
    cases hq
    obtain ⟨h1, qn, anc, h2, -, -, h3, h4, h5⟩ := h
    exact ⟨h1, qn, anc, h2, h3, h4, h5⟩

theorem slotReady_gas {gas : Nat} {b : BST T} {slot : Slot} {dp par : Option Nat}
    {d : Tree T} (h : SlotReady gas b slot dp par d) : d.height + 2 ≤ gas := by
  cases slot with
  | root => exact h.2.2
  | left q =>
    obtain ⟨-, qn, anc, -, -, -, -, h5⟩ := h
    omega
  | right q =>
    obtain ⟨-, qn, anc, -, -, -, -, -, h5⟩ := h
    omega

/-- First part of `copyTree` at a source node `s`: afterwards the place holds
a pointer to a live node `da` with the value and the colour of `s`; `da` is
the former root of the destination subtree `d`, with its subtrees `dl` and
`dr`, or a new node without children when `d` was empty.  Other nodes are
untouched, but for the owner of the place, which gets the pointer to `da`. -/
theorem copyHead_spec (gas : Nat) (b : BST T) (s : Nat) (sn : BNode T) (slot : Slot)
    (dp par : Option Nat) (d : Tree T)
    (hs : load b.mem s = some sn) (hready : SlotReady gas b slot dp par d)
    (hrepr : Repr b.mem dp d) (hpar : ParentsOk b.mem par d) (hnd : d.addrs.Nodup)
    (hrootd : slot ≠ Slot.root → ∀ y ∈ d.addrs, b.root ≠ some y)
    (hsd : s ∉ d.addrs) (hso : some s ≠ slot.owner) :
    ∃ b1 da dn dl dr anc1,
      copyHead b s slot = some b1 ∧ readSlot b1 slot = some (some da) ∧
      load b1.mem da = some dn ∧ dn.data = sn.data ∧ dn.isRed = sn.isRed ∧
      Repr b1.mem dn.pLeft dl ∧ Repr b1.mem dn.pRight dr ∧
      ParentsOk b1.mem (some da) dl ∧ ParentsOk b1.mem (some da) dr ∧
      dl.addrs.Nodup ∧ dr.addrs.Nodup ∧ da ∉ dl.addrs ∧ da ∉ dr.addrs ∧
      (∀ y ∈ dl.addrs, y ∉ dr.addrs) ∧
      Chain b1.mem da anc1 ∧ (∀ y ∈ anc1, y ∉ d.addrs ∧ y ≠ da) ∧
      anc1.length + max dl.height dr.height + 2 ≤ gas ∧
      (par = none → dn.pParent = none) ∧
      (∀ y, y ∈ dl.addrs ∨ y ∈ dr.addrs → y ∈ d.addrs) ∧
      (da ∈ d.addrs ∨ load b.mem da = none) ∧
      (∀ x, x ≠ da → some x ≠ slot.owner → load b1.mem x = load b.mem x) ∧
      (∀ q qn, slot.owner = some q → load b.mem q = some qn →
        load b1.mem q = some (slot.setLink (some da) qn)) ∧
      (slot ≠ Slot.root → b1.root = b.root) ∧
      (∀ y, y ∈ dl.addrs ∨ y ∈ dr.addrs → b1.root ≠ some y) := by
  have hread0 := readSlot_ready hready
  have hgas0 := slotReady_gas hready
  cases d with
  | nil =>
    have hdp : dp = none := hrepr
    subst hdp
    have hl0 : ∀ x, load (b.mem ++ [some (BNode.fresh sn.data)]) x
        = if x = b.mem.length then some (BNode.fresh sn.data) else load b.mem x :=
      load_alloc b.mem (BNode.fresh sn.data)
    have hfresh : ∀ x k, load b.mem x = some k → x ≠ b.mem.length := by
      intro x k h e
      have := load_lt h
      omega
    have hdead : load b.mem b.mem.length = none := by
      cases h : load b.mem b.mem.length with
      | none => rfl
      | some k => exact absurd rfl (hfresh _ k h)
    have hownlive : ∀ q, slot.owner = some q → ∃ qn, load b.mem q = some qn := by
      intro q hq
      obtain ⟨-, qn, anc, h2, -⟩ := slotReady_owner hready q hq
      exact ⟨qn, h2⟩
    obtain ⟨b1, hw1, hread1, hframe1, hown1, hroot1, hroot1r⟩ :=
      writeSlot_spec { b with mem := b.mem ++ [some (BNode.fresh sn.data)] } slot
        (some b.mem.length) (by
          intro q hq
          obtain ⟨qn, h2⟩ := hownlive q hq
          exact ⟨qn, by rw [hl0, if_neg (hfresh q qn h2)]; exact h2⟩)
    have haown : some b.mem.length ≠ slot.owner := by
      intro e
      obtain ⟨qn, h2⟩ := hownlive _ e.symm
      exact hfresh _ qn h2 rfl
    have hla1 : load b1.mem b.mem.length = some (BNode.fresh sn.data) := by
      rw [hframe1 _ haown]
      show load (b.mem ++ [some (BNode.fresh sn.data)]) b.mem.length = _
      rw [hl0, if_pos rfl]
    have hs1 : load b1.mem s = some sn := by
      rw [hframe1 s hso]
      show load (b.mem ++ [some (BNode.fresh sn.data)]) s = _
      rw [hl0, if_neg (hfresh s sn hs)]
      exact hs
    obtain ⟨b2, hw2, hroot2, hl2, hread2⟩ :=
      writeAt_spec b1 slot b.mem.length (BNode.fresh sn.data)
        (fun n => { n with isRed := sn.isRed }) hread1 hla1 haown
    have hla2 : load b2.mem b.mem.length
        = some { BNode.fresh sn.data with isRed := sn.isRed } := by
      rw [hl2, if_pos rfl]
    refine ⟨b2, b.mem.length, { BNode.fresh sn.data with isRed := sn.isRed }, Tree.nil,
      Tree.nil, [], ?_, hread2, hla2, rfl, rfl, rfl, rfl, trivial, trivial, List.nodup_nil,
      List.nodup_nil, by simp [Tree.addrs], by simp [Tree.addrs], by simp [Tree.addrs],
      ⟨_, hla2, rfl⟩, by simp, ?_, fun _ => rfl, by simp [Tree.addrs], Or.inr hdead, ?_, ?_,
      ?_, by simp [Tree.addrs]⟩
    · simp only [copyHead, hread0, hs, alloc, hw1, hs1, hw2]
    · simpa [Tree.height] using hgas0
    · intro x hxa hxo
      rw [hl2, if_neg hxa, hframe1 x hxo]
      show load (b.mem ++ [some (BNode.fresh sn.data)]) x = _
      rw [hl0, if_neg hxa]
    · intro q qn hq hload
      have hqa : q ≠ b.mem.length := hfresh q qn hload
      rw [hl2, if_neg hqa]
      refine hown1 q qn hq ?_
      show load (b.mem ++ [some (BNode.fresh sn.data)]) q = _
      rw [hl0, if_neg hqa]
      exact hload
    · intro h
      rw [hroot2, hroot1 h]
  | node dl da dd dred dr =>
    obtain ⟨hdp, dn0, hn0, -, -, hl, hr⟩ := hrepr
    obtain ⟨⟨dn1, hn1, hpn⟩, hparl, hparr⟩ := hpar
    rw [hn0] at hn1
    cases hn1
    subst hdp
    obtain ⟨hndl, hndr, hal, har, hdisj⟩ := Tree.nodup_node hnd
    have hmem : ∀ x, x ∈ (Tree.node dl da dd dred dr).addrs ↔
        x ∈ dl.addrs ∨ x = da ∨ x ∈ dr.addrs := by
      intro x
      simp [Tree.addrs]
    have hdaown : some da ≠ slot.owner := by
      intro e
      obtain ⟨-, qn, anc, -, -, h4, -⟩ := slotReady_owner hready da e.symm
      exact h4 da (by simp) ((hmem da).2 (Or.inr (Or.inl rfl)))
    have hsda : s ≠ da := fun e => hsd ((hmem s).2 (Or.inr (Or.inl e)))
    obtain ⟨b1, hw1, hroot1, hl1, hread1⟩ :=
      writeAt_spec b slot da dn0 (fun n => { n with data := sn.data }) hread0 hn0 hdaown
    have hs1 : load b1.mem s = some sn := by
      rw [hl1, if_neg hsda]
      exact hs
    obtain ⟨b2, hw2, hroot2, hl2, hread2⟩ :=
      writeAt_spec b1 slot da { dn0 with data := sn.data }
        (fun n => { n with isRed := sn.isRed }) hread1 (by rw [hl1, if_pos rfl]) hdaown
    have hla2 : load b2.mem da
        = some { dn0 with data := sn.data, isRed := sn.isRed } := by
      rw [hl2, if_pos rfl]
    have hframe : ∀ x, x ≠ da → load b2.mem x = load b.mem x := by
      intro x hx
      rw [hl2, if_neg hx, hl1, if_neg hx]
    obtain ⟨anc1, hch1, hout1, hgas1⟩ : ∃ anc1,
        Chain b2.mem da anc1 ∧
        (∀ y ∈ anc1, y ∉ (Tree.node dl da dd dred dr).addrs ∧ y ≠ da) ∧
        anc1.length + max dl.height dr.height + 2 ≤ gas := by
      cases hown : slot.owner with
      | none =>
        have hslot := Slot.owner_none hown
        subst hslot
        have hp : par = none := hready.2.1
        refine ⟨[], ⟨_, hla2, by rw [← hp]; exact hpn⟩, by simp, ?_⟩
        have := hready.2.2
        simp only [Tree.height] at this
        simpa using (by omega : 0 + max dl.height dr.height + 2 ≤ gas)
      | some q =>
        obtain ⟨hp, qn, anc, h2, h3, h4, h5⟩ := slotReady_owner hready q hown
        have hne : ∀ y ∈ q :: anc, y ≠ da :=
          fun y hy e => h4 y hy ((hmem y).2 (Or.inr (Or.inl e)))
        refine ⟨q :: anc, ⟨_, hla2, by rw [← hp]; exact hpn, ?_⟩,
          fun y hy => ⟨h4 y hy, hne y hy⟩, ?_⟩
        · refine chain_congr anc q (fun x hx k hk => ⟨k, ?_, rfl⟩) h3
          rw [hframe x (hne x hx)]
          exact hk
        · simp only [Tree.height] at h5
          simp only [List.length_cons]
          omega
    refine ⟨b2, da, { dn0 with data := sn.data, isRed := sn.isRed }, dl, dr, anc1, ?_,
      hread2, hla2, rfl, rfl, ?_, ?_, ?_, ?_, hndl, hndr, hal, har, hdisj, hch1, hout1, hgas1,
      ?_, ?_, Or.inl ((hmem da).2 (Or.inr (Or.inl rfl))), fun x hx _ => hframe x hx, ?_,
      fun _ => by rw [hroot2, hroot1], ?_⟩
    · simp only [copyHead, hread0, hs, hw1, hs1, hw2]
    · exact repr_frame dl _ (fun x hx => hframe x (fun e => hal (e ▸ hx))) hl
    · exact repr_frame dr _ (fun x hx => hframe x (fun e => har (e ▸ hx))) hr
    · exact parentsOk_frame dl _ (fun x hx => hframe x (fun e => hal (e ▸ hx))) hparl
    · exact parentsOk_frame dr _ (fun x hx => hframe x (fun e => har (e ▸ hx))) hparr
    · intro hp
      rw [← hp]
      exact hpn
    · intro y hy
      rcases hy with h | h
      · exact (hmem y).2 (Or.inl h)
      · exact (hmem y).2 (Or.inr (Or.inr h))
    · intro q qn hq hload
      have hqda : q ≠ da := fun e => hdaown (by rw [← e, hq])
      rw [hframe q hqda, hload]
      cases slot with
      | root => rfl
      | left q1 =>
        cases hq
        obtain ⟨-, qn1, anc, h2, h3, -⟩ := hready
        rw [hload] at h2
        cases h2
        cases qn
        simp only [Slot.setLink] at h3 ⊢
        rw [h3]
      | right q1 =>
        cases hq
        obtain ⟨-, qn1, anc, h2, h3, -⟩ := hready
        rw [hload] at h2
        cases h2
        cases qn
        simp only [Slot.setLink] at h3 ⊢
        rw [h3]
    · intro y hy
      rw [hroot2, hroot1]
      by_cases hslot : slot = Slot.root
      · subst hslot
        have hroot : b.root = some da := hready.1
        rw [hroot]
        intro e
        cases e
        rcases hy with h | h
        · exact hal h
        · exact har h
      · rcases hy with h | h
        · exact hrootd hslot y ((hmem y).2 (Or.inl h))
        · exact hrootd hslot y ((hmem y).2 (Or.inr (Or.inr h)))

end copying

/-! ## Erase at the root, clear, initializer lists and rotations at concrete inputs -/

section concrete

/-- C11: erasing the root of the tree built by inserting 2, 1, 3 (three nodes,
`size()` 3) leaves no value reachable from `root` and `size()` 2: the code
drops the whole tree instead of removing only the node holding 2. -/
theorem erase_root_loses_values :
    (toTree sampleBST.mem 20 sampleBST.root).map (fun s => (s.values, sampleBST.size))
      = some ([1, 2, 3], 3)
    ∧ sampleBST.find 20 2 = some sampleBST.root
    ∧ (sampleBST.erase 20 sampleBST.root).bind
        (fun r => (toTree r.1.mem 20 r.1.root).map (fun s => (s.values, r.1.size, r.1.root)))
      = some ([], 2, none) := by
  decide

/-- C12: erasing the root of the tree built by inserting 2, 1, 3 returns
`end()` although the root is followed in in-order by the node holding 3 (at
address 2), which `operator++` does find. -/
theorem erase_root_returns_end :
    (toTree sampleBST.mem 20 sampleBST.root).map (fun s => s.addrs) = some [1, 0, 2]
    ∧ increment sampleBST.mem 20 (some 0) = some (some 2)
    ∧ (sampleBST.erase 20 (some 0)).map (fun r => r.2.2) = some none := by
  decide

/-- C13: after inserting 3, 2, 1 into an empty tree, `clear()` leaves `root`
null but `size()` 2, so `empty()` is false, two nodes stay in memory, and
`begin()` dereferences the null `root`. -/
theorem clear_leaves_size :
    (BST.insertAll 20 (BST.empty : BST Int) [3, 2, 1]).bind (fun b => b.clear 20) = some
        { mem := [none,
                  some { data := 2, pLeft := some 2, pRight := some 0, pParent := none,
                         isRed := false },
                  some { data := 1, pLeft := none, pRight := none, pParent := some 1,
                         isRed := true }],
          root := none,
          numElements := 2 }
    ∧ (BST.insertAll 20 (BST.empty : BST Int) [3, 2, 1]).bind
        (fun b => (b.clear 20).map (fun c => (c.size, c.isEmpty))) = some (2, false)
    ∧ (BST.insertAll 20 (BST.empty : BST Int) [3, 2, 1]).bind
        (fun b => (b.clear 20).bind (fun c => c.begin 20)) = none := by
  decide

/-- C15: the tree constructed from the initializer list 1, 2, 3 has `size()`
99 and one red node holding a value that is not taken from the list. -/
theorem ofList_ignores_list :
    (BST.ofList ([] : Mem Int) 0 [1, 2, 3]).size = 99
    ∧ toTree (BST.ofList ([] : Mem Int) 0 [1, 2, 3]).mem 20
        (BST.ofList ([] : Mem Int) 0 [1, 2, 3]).root
      = some (Tree.node Tree.nil 0 0 true Tree.nil)
    ∧ (BST.ofList ([] : Mem Int) 0 []).size = 99 := by
  decide

/-- C16: assigning the initializer list 7 to a tree that holds 5 leaves a tree
that holds 5 and 7 with `size()` 2: the former element remains. -/
theorem assignList_keeps_elements :
    (BST.insertAll 20 (BST.empty : BST Int) [5]).bind
        (fun b => (b.assignList 20 [7]).bind
          (fun c => (toTree c.mem 20 c.root).map (fun s => (s.values, c.size))))
      = some ([5, 7], 2) := by
  decide

/-- C19: with a great-grandparent, the top of the rotated subtree is attached
on the wrong side.  After 2, 1, 3, 0 the root (address 0) has the children at
1 and 2; inserting -1 rotates below the left child (case 4a) and attaches the
top (address 3) as the right child, the left child is still the old
grandparent and the node at 2 is cut off.  Inserting 5 after 2, 1, 3, 4
rotates below the right child (case 4b) and attaches the top (address 3) as
the left child, the right child is still the old grandparent and the node at
1 is cut off. -/
theorem rotation_attaches_wrong_side :
    (BST.insertAll 20 (BST.empty : BST Int) [2, 1, 3, 0]).bind
        (fun b => (load b.mem 0).map (fun n => (n.pLeft, n.pRight))) = some (some 1, some 2)
    ∧ (BST.insertAll 20 (BST.empty : BST Int) [2, 1, 3, 0, -1]).bind
        (fun b => (load b.mem 0).map (fun n => (n.pLeft, n.pRight))) = some (some 1, some 3)
    ∧ (BST.insertAll 20 (BST.empty : BST Int) [2, 1, 3, 0, -1]).bind
        (fun b => (load b.mem 3).map (fun n => (n.data, n.pLeft, n.pRight, n.pParent)))
      = some (0, some 4, some 1, some 0)
    ∧ (BST.insertAll 20 (BST.empty : BST Int) [2, 1, 3, 4]).bind
        (fun b => (load b.mem 0).map (fun n => (n.pLeft, n.pRight))) = some (some 1, some 2)
    ∧ (BST.insertAll 20 (BST.empty : BST Int) [2, 1, 3, 4, 5]).bind
        (fun b => (load b.mem 0).map (fun n => (n.pLeft, n.pRight))) = some (some 3, some 2)
    ∧ (BST.insertAll 20 (BST.empty : BST Int) [2, 1, 3, 4, 5]).bind
        (fun b => (load b.mem 3).map (fun n => (n.data, n.pLeft, n.pRight, n.pParent)))
      = some (4, some 2, some 4, some 0) := by
  decide

/-- In the tree holding 2, 1, 3 the node holding 1 (address 1) is followed by
the root (address 0): `++` moves from the one to the other. -/
theorem increment_moves_to_successor_witness :
    increment sampleBST.mem 2 (some 1) = some (some 0) :=
  increment_moves_to_successor sampleBST.mem sampleBST.root sampleTree 1 0 2 [] [2]
    sampleBST_repr sampleBST_holdsRB.2.1 (by decide) rfl (by decide)

/-- Inserting 0 below the red node 1 of the tree holding 2, 1, 3: `balance`
recolours the parent (address 1) and the aunt (address 2) black, and the
grandparent, which is the root, is black again at the end. -/
theorem balance_recolour_step_witness :
    ∃ m4, balance (5 + 2) recolourMem 3 (some 0) = some m4 ∧
      ∀ x, load m4 x = (load recolourMem x).map (fun n =>
        if x = 1 ∨ x = 2 then { n with isRed := false } else n) :=
  (balance_recolour_step recolourMem 3 1 0 2 5 (some 0)
    { data := 0, pLeft := none, pRight := none, pParent := some 1, isRed := true }
    { data := 1, pLeft := some 3, pRight := none, pParent := some 0, isRed := true }
    { data := 2, pLeft := some 1, pRight := some 2, pParent := none, isRed := false }
    { data := 3, pLeft := none, pRight := none, pParent := some 0, isRed := true }
    rfl rfl rfl rfl rfl rfl rfl rfl rfl rfl).elim (fun _ h => h.2.2 rfl)

end concrete

end custom
